import Mathlib

/-!
Verification of the blob aggregation and filtering pass of
`pcl::gpu::people::RDFBodyPartsDetector` (src/gpu/people/src/bodyparts_detector.cpp).

The host-side core (lines 183-240 of `process`, the former `sortIndicesToBlob2`)
is embedded shallowly:

* pixel grids become lists indexed by raster position `k`
  (`lmap_host_` as `labels : List ℕ`, `dst_labels_` as `ccs : List ℤ`,
  `cloud.points` as `pts : List Point3`);
* the accumulator arrays `means_storage_` (offset so slot `-1` exists) and
  `region_sizes_` become total functions `ℤ → Point3` and `ℤ → ℕ`, updated by a
  left fold exactly as the first per-pixel loop does;
* float arithmetic is modelled by exact rational arithmetic (`qadd`, `qdiv`
  below, proved equal to the field operations of `ℚ`);
* the remap table `remap_` (filled with `-1`) becomes a total function `ℤ → ℤ`;
* in-place vector writes `blob_matrix_[label][i]` become `modifyAt`
  (out-of-range writes, undefined behaviour in C++, are modelled as no-ops);
* the constructor of `RDFBodyPartsDetector` (lines 55-87) is embedded as a
  function returning the sequence of acquired resources together with either a
  detector state or a rejection, the failing `assert(!tree_files.empty())`
  being modelled as the error outcome.
-/

/-- Exact rational addition, written so that the kernel can evaluate it
(`Rat.add` is irreducible); proved equal to `+` in `qadd_eq`. -/
def qadd (a b : ℚ) : ℚ := mkRat (a.num * b.den + b.num * a.den) (a.den * b.den)

/-- Exact rational division, written so that the kernel can evaluate it
(`Rat.div` is irreducible); proved equal to `/` in `qdiv_eq`. -/
def qdiv (a b : ℚ) : ℚ := Rat.divInt (a.num * b.den) (b.num * a.den)

theorem qadd_eq (a b : ℚ) : qadd a b = a + b := by
  rw [qadd, Rat.add_def, Rat.normalize_eq_mkRat]

theorem qdiv_eq (a b : ℚ) : qdiv a b = a / b := by
  rw [qdiv]
  conv_rhs => rw [← Rat.num_divInt_den a, ← Rat.num_divInt_den b]
  rw [Rat.divInt_div_divInt, Int.mul_comm a.den b.num]

/-- A 3-D point (the `x`, `y`, `z` fields of `pcl::PointXYZ` / `float3`),
with float arithmetic modelled exactly over `ℚ`. -/
structure Point3 where
  x : ℚ
  y : ℚ
  z : ℚ
deriving DecidableEq, Repr

/-- The all-zero point (`std::fill(means_storage_.begin(), ..., 0)`). -/
def Point3.zero : Point3 := ⟨0, 0, 0⟩

/-- Componentwise accumulation `means[cc].x += p.x; ...`. -/
def Point3.add (p q : Point3) : Point3 := ⟨qadd p.x q.x, qadd p.y q.y, qadd p.z q.z⟩

/-- One output blob: the fields of `pcl::gpu::people::Blob2` that the
aggregation pass writes (`label`, `mean`, `indices.indices`, `id`, `lid`).
`id` and `lid` are written only by the finalization loop; before it they keep
the default value `0`. -/
structure Blob where
  label : ℕ
  mean : Point3
  indices : List ℕ
  id : ℤ
  lid : ℤ
deriving DecidableEq, Repr

instance : Inhabited Blob := ⟨⟨0, Point3.zero, [], 0, 0⟩⟩

/-- The blob matrix `blob_matrix_`: one list of blobs per part label. -/
abbrev BlobMat := List (List Blob)

/-- In-place update of element `i` of a vector, `v[i] = f(v[i])`; writing out
of range (undefined behaviour in the C++ source) is modelled as a no-op. -/
def modifyAt {α : Type} : List α → ℕ → (α → α) → List α
  | [], _, _ => []
  | a :: t, 0, f => f a :: t
  | a :: t, i + 1, f => a :: modifyAt t i f

/-- One iteration of the first per-pixel loop (lines 195-203): add the point
into the mean slot of its component id and bump that component's size. -/
def pass1Step (acc : (ℤ → Point3) × (ℤ → ℕ)) (e : ℤ × Point3) :
    (ℤ → Point3) × (ℤ → ℕ) :=
  (Function.update acc.1 e.1 ((acc.1 e.1).add e.2),
   Function.update acc.2 e.1 (acc.2 e.1 + 1))

/-- The accumulation pass (pass 1): fold the first loop over all pixels,
starting from the zero-filled `means_storage_` and `region_sizes_`. -/
def pass1 (ccs : List ℤ) (pts : List Point3) : (ℤ → Point3) × (ℤ → ℕ) :=
  (ccs.zip pts).foldl pass1Step (fun _ => Point3.zero, fun _ => 0)

/-- The `means` array as pass 2 sees it: the accumulated sums with the `z`
slot of the sentinel component forced to `0` (`means[-1].z = 0;`, line 205). -/
def means (ccs : List ℤ) (pts : List Point3) : ℤ → Point3 :=
  Function.update (pass1 ccs pts).1 (-1)
    { (pass1 ccs pts).1 (-1) with z := 0 }

/-- The `rsizes` array after pass 1. -/
def rsizes (ccs : List ℤ) (pts : List Point3) : ℤ → ℕ := (pass1 ccs pts).2

/-- The validity test of line 212:
`means[cc].z != 0 && min_pts_per_cluster <= rsizes[cc] && rsizes[cc] <= max_cluster_size_`. -/
def ccPasses (ms : ℤ → Point3) (rs : ℤ → ℕ) (minPts maxSize : ℤ) (c : ℤ) : Bool :=
  decide ((ms c).z ≠ 0) && decide (minPts ≤ (rs c : ℤ)) && decide ((rs c : ℤ) ≤ maxSize)

/-- The centroid written at blob creation (lines 222-224):
`means[cc] / rsizes[cc]`, componentwise. -/
def blobMean (ms : ℤ → Point3) (rs : ℤ → ℕ) (c : ℤ) : Point3 :=
  ⟨qdiv (ms c).x (rs c : ℚ), qdiv (ms c).y (rs c : ℚ), qdiv (ms c).z (rs c : ℚ)⟩

/-- The freshly created blob of lines 218-225 before its creating pixel is
pushed: label and centroid set, member list still empty. -/
def newBlob (label : ℕ) (ms : ℤ → Point3) (rs : ℤ → ℕ) (c : ℤ) : Blob :=
  { label := label, mean := blobMean ms rs c, indices := [], id := 0, lid := 0 }

/-- The push `blob_matrix_[label][ccindex].indices.indices.push_back(k)` of line 227. -/
def pushIndex (k : ℕ) (b : Blob) : Blob := { b with indices := b.indices ++ [k] }

/-- One iteration of the second per-pixel loop (lines 207-229) on the state
`(blob_matrix_, remap_)`: if the pixel's component passes the validity test,
create a blob for it in the current pixel's label list when the remap slot is
still `-1`, then push the pixel into `blob_matrix_[label][ccindex]`. -/
def pass2Step (ms : ℤ → Point3) (rs : ℤ → ℕ) (minPts maxSize : ℤ)
    (st : BlobMat × (ℤ → ℤ)) (k : ℕ) (label : ℕ) (c : ℤ) : BlobMat × (ℤ → ℤ) :=
  if ccPasses ms rs minPts maxSize c then
    if st.2 c = -1 then
      let i : ℕ := (st.1.getD label []).length
      (modifyAt (modifyAt st.1 label (fun l => l ++ [newBlob label ms rs c]))
         label (fun l => modifyAt l i (pushIndex k)),
       Function.update st.2 c (i : ℤ))
    else
      (modifyAt st.1 label (fun l => modifyAt l (st.2 c).toNat (pushIndex k)), st.2)
  else st

/-- The filter-and-materialize pass (pass 2): iterate `pass2Step` over the
pixels in raster order, `k` being the index of the next pixel. -/
def pass2 (ms : ℤ → Point3) (rs : ℤ → ℕ) (minPts maxSize : ℤ) :
    ℕ → List (ℕ × ℤ) → BlobMat × (ℤ → ℤ) → BlobMat × (ℤ → ℤ)
  | _, [], st => st
  | k, p :: rest, st =>
      pass2 ms rs minPts maxSize (k + 1) rest (pass2Step ms rs minPts maxSize st k p.1 p.2)

/-- Finalization of one label's list: `id` continues the global counter,
`lid` is the position in the list (lines 233-237). -/
def assignList : ℤ → ℤ → List Blob → List Blob
  | _, _, [] => []
  | gid, lv, b :: t => { b with id := gid, lid := lv } :: assignList (gid + 1) (lv + 1) t

/-- Finalization (lines 231-237): walk the matrix in label order, threading
the global `id` counter, and set every `lid` to the blob's list position. -/
def finalize : ℤ → BlobMat → BlobMat
  | _, [] => []
  | gid, l :: rest => assignList gid 0 l :: finalize (gid + (l.length : ℤ)) rest

/-- The whole host-side aggregation pass of `process` (lines 183-237, the
former `sortIndicesToBlob2`): pass 1, the sentinel fix-up, pass 2 starting
from the cleared matrix of `numParts` empty lists and the remap table filled
with `-1`, then finalization with the global id counter starting at `0`. -/
def sortIndicesToBlob2 (numParts : ℕ) (labels : List ℕ) (ccs : List ℤ)
    (pts : List Point3) (minPts maxSize : ℤ) : BlobMat :=
  finalize 0
    (pass2 (means ccs pts) (rsizes ccs pts) minPts maxSize 0 (labels.zip ccs)
      (List.replicate numParts [], fun _ => -1)).1

/-- Sum of the points of the pixels with component id `c`, in raster order:
the value `means[c]` holds after pass 1 (proved in `pass1_fst_eq_ccSum`). -/
def ccSum (ccs : List ℤ) (pts : List Point3) (c : ℤ) : Point3 :=
  ((ccs.zip pts).filter (fun e => decide (e.1 = c))).foldl (fun a e => a.add e.2) Point3.zero

/-- Number of pixels with component id `c`: the value `rsizes[c]` holds after
pass 1 (proved in `pass1_snd_eq_ccCount`). -/
def ccCount (ccs : List ℤ) (pts : List Point3) (c : ℤ) : ℕ :=
  ((ccs.zip pts).filter (fun e => decide (e.1 = c))).length

/-- Like `ccSum`, restricted to the first `k` pixels. -/
def takeSum (ccs : List ℤ) (pts : List Point3) (k : ℕ) (c : ℤ) : Point3 :=
  (((ccs.zip pts).take k).filter (fun e => decide (e.1 = c))).foldl
    (fun a e => a.add e.2) Point3.zero

/-- Like `ccCount`, restricted to the first `k` pixels. -/
def takeCount (ccs : List ℤ) (pts : List Point3) (k : ℕ) (c : ℤ) : ℕ :=
  (((ccs.zip pts).take k).filter (fun e => decide (e.1 = c))).length

/-- Sum of the points of a blob's member pixels. -/
def memberSum (pts : List Point3) (ind : List ℕ) : Point3 :=
  ind.foldl (fun a j => a.add (pts.getD j Point3.zero)) Point3.zero

/-- Total number of members over the whole blob matrix. -/
def memberTotal (bm : BlobMat) : ℕ :=
  (bm.map (fun l => (l.map (fun b => b.indices.length)).sum)).sum

/-- The raster position of the pixel that created a blob: its first member. -/
def headIdx (b : Blob) : ℕ := b.indices.headD 0

/-- The upstream invariant of the external component labeler: a component id
never straddles two labels (spec 4.2). -/
def LabelHomogeneous (labels : List ℕ) (ccs : List ℤ) : Prop :=
  ∀ j, j < ccs.length → ∀ j', j' < ccs.length →
    ccs.getD j (-1) = ccs.getD j' (-1) → labels.getD j 0 = labels.getD j' 0

/-- Resources acquired by the `RDFBodyPartsDetector` constructor, in
acquisition order: the `MultiTreeLiveProc` device processor (line 61), the
color map upload (line 84), the frame scratch buffers (line 86). -/
inductive AllocStep
  | multiTreeLiveProc
  | colorMapUpload
  | frameBuffers
deriving DecidableEq, Repr

/-- Rejection outcomes of construction: the empty tree file list (the failing
`assert(!tree_files.empty())`, line 59) or a `loadTree` failure (line 70). -/
inductive CtorError
  | emptyTreeFileList
  | treeLoadFailure
deriving DecidableEq, Repr

/-- The state a successful construction produces; tree files are abstracted
to the heights `loadTree` returns. -/
structure DetectorState where
  treeHeights : List ℤ
  rows : ℕ
  cols : ℕ
deriving DecidableEq, Repr

/-- The tree-loading loop of lines 63-72: each file either loads to a height
(`some h`) or makes `loadTree` throw (`none`), aborting the whole loop. -/
def loadAllTrees : List (Option ℤ) → Option (List ℤ)
  | [] => some []
  | f :: rest =>
      match f, loadAllTrees rest with
      | some h, some t => some (h :: t)
      | _, _ => none

/-- The constructor (lines 55-87): check the tree file list is nonempty
before anything else, then acquire the device processor, load every tree,
upload the color map and allocate the frame buffers.  Returns the list of
resources acquired together with the outcome; the failing assertion is
modelled as the `emptyTreeFileList` error. -/
def constructRDFBodyPartsDetector (treeFiles : List (Option ℤ)) (rows cols : ℕ) :
    List AllocStep × Except CtorError DetectorState :=
  if treeFiles.isEmpty then ([], Except.error CtorError.emptyTreeFileList)
  else
    match loadAllTrees treeFiles with
    | none => ([AllocStep.multiTreeLiveProc], Except.error CtorError.treeLoadFailure)
    | some hs =>
        ([AllocStep.multiTreeLiveProc, AllocStep.colorMapUpload, AllocStep.frameBuffers],
         Except.ok ⟨hs, rows, cols⟩)

/-! Basic lemmas about `modifyAt` and `List.getD`. -/

theorem modifyAt_length {α : Type} (l : List α) (i : ℕ) (f : α → α) :
    (modifyAt l i f).length = l.length := by
  induction l generalizing i with
  | nil => rfl
  | cons a t ih => cases i with
    | zero => rfl
    | succ i => simp [modifyAt, ih]

theorem modifyAt_oob {α : Type} (l : List α) (i : ℕ) (f : α → α)
    (h : l.length ≤ i) : modifyAt l i f = l := by
  induction l generalizing i with
  | nil => rfl
  | cons a t ih => cases i with
    | zero => simp at h
    | succ i =>
        simp only [List.length_cons, Nat.succ_le_succ_iff] at h
        simp [modifyAt, ih i h]

theorem getD_modifyAt_eq {α : Type} (l : List α) (i : ℕ) (f : α → α) (d : α)
    (h : i < l.length) : (modifyAt l i f).getD i d = f (l.getD i d) := by
  induction l generalizing i with
  | nil => simp at h
  | cons a t ih => cases i with
    | zero => rfl
    | succ i =>
        simp only [List.length_cons, Nat.succ_lt_succ_iff] at h
        simpa [modifyAt] using ih i h

theorem getD_modifyAt_ne {α : Type} (l : List α) (i j : ℕ) (f : α → α) (d : α)
    (h : i ≠ j) : (modifyAt l i f).getD j d = l.getD j d := by
  induction l generalizing i j with
  | nil => rfl
  | cons a t ih => cases i with
    | zero => cases j with
      | zero => exact absurd rfl h
      | succ j => rfl
    | succ i => cases j with
      | zero => rfl
      | succ j =>
          have : i ≠ j := fun e => h (by rw [e])
          simpa [modifyAt] using ih i j this

theorem mem_modifyAt {α : Type} [Inhabited α] {l : List α} {i : ℕ} {f : α → α} {x : α}
    (h : x ∈ modifyAt l i f) :
    x ∈ l ∨ (i < l.length ∧ x = f (l.getD i default)) := by
  induction l generalizing i with
  | nil => simp [modifyAt] at h
  | cons a t ih => cases i with
    | zero =>
        rcases List.mem_cons.mp h with h | h
        · exact Or.inr ⟨by simp, by simp [h]⟩
        · exact Or.inl (List.mem_cons_of_mem _ h)
    | succ i =>
        rcases List.mem_cons.mp h with h | h
        · exact Or.inl (h ▸ List.mem_cons_self _ _)
        · rcases ih h with h | ⟨hi, hx⟩
          · exact Or.inl (List.mem_cons_of_mem _ h)
          · exact Or.inr ⟨by simpa using Nat.succ_lt_succ hi, by simpa using hx⟩

theorem modifyAt_modifyAt {α : Type} (l : List α) (i : ℕ) (f g : α → α) :
    modifyAt (modifyAt l i f) i g = modifyAt l i (fun x => g (f x)) := by
  induction l generalizing i with
  | nil => rfl
  | cons a t ih => cases i with
    | zero => rfl
    | succ i => simp [modifyAt, ih]

theorem modifyAt_append_length {α : Type} (l : List α) (b : α) (f : α → α) :
    modifyAt (l ++ [b]) l.length f = l ++ [f b] := by
  induction l with
  | nil => rfl
  | cons a t ih => simpa [modifyAt] using ih

theorem getD_append_lt {α : Type} (l t : List α) (j : ℕ) (d : α)
    (h : j < l.length) : (l ++ t).getD j d = l.getD j d := by
  induction l generalizing j with
  | nil => simp at h
  | cons a s ih => cases j with
    | zero => rfl
    | succ j =>
        simp only [List.length_cons, Nat.succ_lt_succ_iff] at h
        simpa using ih j h

theorem getD_append_length {α : Type} (l : List α) (x : α) (d : α) :
    (l ++ [x]).getD l.length d = x := by
  induction l with
  | nil => rfl
  | cons a s ih => simp [ih]

theorem getD_oob {α : Type} (l : List α) (j : ℕ) (d : α) (h : l.length ≤ j) :
    l.getD j d = d := by
  induction l generalizing j with
  | nil => simp [List.getD]
  | cons a s ih => cases j with
    | zero => simp at h
    | succ j =>
        simp only [List.length_cons, Nat.succ_le_succ_iff] at h
        simpa using ih j h

theorem mem_of_getD {α : Type} (l : List α) (j : ℕ) (d : α) (h : j < l.length) :
    l.getD j d ∈ l := by
  induction l generalizing j with
  | nil => simp at h
  | cons a s ih => cases j with
    | zero => simp [List.getD]
    | succ j =>
        simp only [List.length_cons, Nat.succ_lt_succ_iff] at h
        simpa using Or.inr (ih j h)


/-! Pass 1 computes per-component sums and counts. -/

theorem foldl_pass1Step_fst (l : List (ℤ × Point3)) (m : ℤ → Point3) (r : ℤ → ℕ) (c : ℤ) :
    (l.foldl pass1Step (m, r)).1 c =
      (l.filter (fun e => decide (e.1 = c))).foldl (fun a e => a.add e.2) (m c) := by
  induction l generalizing m r with
  | nil => rfl
  | cons e t ih =>
      have step : List.foldl pass1Step (m, r) (e :: t) =
          List.foldl pass1Step (pass1Step (m, r) e) t := rfl
      rw [step]
      have ih1 := ih (Function.update m e.1 ((m e.1).add e.2)) (Function.update r e.1 (r e.1 + 1))
      by_cases hc : e.1 = c
      · subst hc
        rw [List.filter_cons_of_pos (by simp)]
        simpa [pass1Step, Function.update_same] using ih1
      · rw [List.filter_cons_of_neg (by simpa using hc)]
        have hne : c ≠ e.1 := fun h => hc h.symm
        simpa [pass1Step, Function.update_noteq hne] using ih1

theorem foldl_pass1Step_snd (l : List (ℤ × Point3)) (m : ℤ → Point3) (r : ℤ → ℕ) (c : ℤ) :
    (l.foldl pass1Step (m, r)).2 c =
      r c + (l.filter (fun e => decide (e.1 = c))).length := by
  induction l generalizing m r with
  | nil => rfl
  | cons e t ih =>
      have step : List.foldl pass1Step (m, r) (e :: t) =
          List.foldl pass1Step (pass1Step (m, r) e) t := rfl
      rw [step]
      have ih1 := ih (Function.update m e.1 ((m e.1).add e.2)) (Function.update r e.1 (r e.1 + 1))
      by_cases hc : e.1 = c
      · subst hc
        rw [List.filter_cons_of_pos (by simp)]
        simp only [pass1Step]
        rw [ih1, Function.update_same]
        simp only [List.length_cons]
        omega
      · rw [List.filter_cons_of_neg (by simpa using hc)]
        have hne : c ≠ e.1 := fun h => hc h.symm
        simpa [pass1Step, Function.update_noteq hne] using ih1

theorem pass1_fst_eq_ccSum (ccs : List ℤ) (pts : List Point3) (c : ℤ) :
    (pass1 ccs pts).1 c = ccSum ccs pts c := by
  rw [pass1, foldl_pass1Step_fst]
  rfl

theorem pass1_snd_eq_ccCount (ccs : List ℤ) (pts : List Point3) (c : ℤ) :
    (pass1 ccs pts).2 c = ccCount ccs pts c := by
  rw [pass1, foldl_pass1Step_snd]
  simp [ccCount]

theorem rsizes_eq_ccCount (ccs : List ℤ) (pts : List Point3) (c : ℤ) :
    rsizes ccs pts c = ccCount ccs pts c :=
  pass1_snd_eq_ccCount ccs pts c

theorem means_sentinel_z (ccs : List ℤ) (pts : List Point3) :
    (means ccs pts (-1)).z = 0 := by
  rw [means, Function.update_same]

theorem means_of_ne (ccs : List ℤ) (pts : List Point3) (c : ℤ) (h : c ≠ -1) :
    means ccs pts c = ccSum ccs pts c := by
  rw [means, Function.update_noteq h, pass1_fst_eq_ccSum]

theorem ccPasses_iff (ms : ℤ → Point3) (rs : ℤ → ℕ) (minPts maxSize : ℤ) (c : ℤ) :
    ccPasses ms rs minPts maxSize c = true ↔
      (ms c).z ≠ 0 ∧ minPts ≤ (rs c : ℤ) ∧ (rs c : ℤ) ≤ maxSize := by
  simp [ccPasses, and_assoc]

theorem ccPasses_sentinel (ccs : List ℤ) (pts : List Point3) (rs : ℤ → ℕ)
    (minPts maxSize : ℤ) : ccPasses (means ccs pts) rs minPts maxSize (-1) = false := by
  simp [ccPasses, means_sentinel_z]

theorem ne_sentinel_of_ccPasses (ccs : List ℤ) (pts : List Point3) (rs : ℤ → ℕ)
    (minPts maxSize : ℤ) (c : ℤ)
    (h : ccPasses (means ccs pts) rs minPts maxSize c = true) : c ≠ -1 := by
  intro hc
  subst hc
  rw [ccPasses_sentinel] at h
  exact Bool.false_ne_true h

/-! Prefix versions of the per-component sums and counts. -/

theorem getD_zip (ccs : List ℤ) (pts : List Point3) (k : ℕ)
    (h : k < (ccs.zip pts).length) (e : ℤ × Point3) (d1 : ℤ) (d2 : Point3) :
    (ccs.zip pts).getD k e = (ccs.getD k d1, pts.getD k d2) := by
  have h1 : k < ccs.length := lt_of_lt_of_le h (by simp [List.length_zip])
  have h2 : k < pts.length := lt_of_lt_of_le h (by simp [List.length_zip])
  rw [List.getD_eq_getElem _ _ h, List.getD_eq_getElem _ _ h1, List.getD_eq_getElem _ _ h2]
  exact List.getElem_zip

theorem take_succ_of_lt {α : Type} (l : List α) (k : ℕ) (h : k < l.length) (e : α) :
    l.take (k + 1) = l.take k ++ [l.getD k e] := by
  rw [List.take_succ, List.getD_eq_getElem _ _ h]
  simp [List.getElem?_eq_getElem h]

theorem takeSum_succ (ccs : List ℤ) (pts : List Point3) (k : ℕ) (c : ℤ)
    (h : k < (ccs.zip pts).length) :
    takeSum ccs pts (k + 1) c =
      if ccs.getD k (-1) = c then
        (takeSum ccs pts k c).add (pts.getD k Point3.zero)
      else takeSum ccs pts k c := by
  have hx := take_succ_of_lt (ccs.zip pts) k h (0, Point3.zero)
  rw [getD_zip ccs pts k h _ (-1) Point3.zero] at hx
  by_cases hc : ccs.getD k (-1) = c
  · rw [if_pos hc, takeSum, hx, List.filter_append, List.foldl_append, hc]
    rw [List.filter_cons_of_pos (by simp)]
    rfl
  · rw [if_neg hc, takeSum, hx, List.filter_append, List.foldl_append]
    rw [List.filter_cons_of_neg (by simpa using hc)]
    rfl

theorem takeCount_succ (ccs : List ℤ) (pts : List Point3) (k : ℕ) (c : ℤ)
    (h : k < (ccs.zip pts).length) :
    takeCount ccs pts (k + 1) c =
      if ccs.getD k (-1) = c then takeCount ccs pts k c + 1
      else takeCount ccs pts k c := by
  have hx := take_succ_of_lt (ccs.zip pts) k h (0, Point3.zero)
  rw [getD_zip ccs pts k h _ (-1) Point3.zero] at hx
  by_cases hc : ccs.getD k (-1) = c
  · rw [if_pos hc, takeCount, hx, List.filter_append, List.length_append]
    rw [List.filter_cons_of_pos (by simpa using hc)]
    rfl
  · rw [if_neg hc, takeCount, hx, List.filter_append, List.length_append]
    rw [List.filter_cons_of_neg (by simpa using hc)]
    rfl

theorem takeSum_of_ge (ccs : List ℤ) (pts : List Point3) (k : ℕ) (c : ℤ)
    (h : (ccs.zip pts).length ≤ k) : takeSum ccs pts k c = ccSum ccs pts c := by
  rw [takeSum, List.take_of_length_le h, ccSum]

theorem takeCount_of_ge (ccs : List ℤ) (pts : List Point3) (k : ℕ) (c : ℤ)
    (h : (ccs.zip pts).length ≤ k) : takeCount ccs pts k c = ccCount ccs pts c := by
  rw [takeCount, List.take_of_length_le h, ccCount]

theorem takeSum_eq_zero (ccs : List ℤ) (pts : List Point3) (k : ℕ) (c : ℤ)
    (hk : k ≤ (ccs.zip pts).length) (h : ∀ j, j < k → ccs.getD j (-1) ≠ c) :
    takeSum ccs pts k c = Point3.zero ∧ takeCount ccs pts k c = 0 := by
  induction k with
  | zero => exact ⟨rfl, rfl⟩
  | succ k ih =>
      have hk1 : k < (ccs.zip pts).length := lt_of_lt_of_le (Nat.lt_succ_self k) hk
      have prev := ih (le_of_lt hk1) (fun j hj => h j (Nat.lt_succ_of_lt hj))
      rw [takeSum_succ ccs pts k c hk1, takeCount_succ ccs pts k c hk1,
        if_neg (h k (Nat.lt_succ_self k)), if_neg (h k (Nat.lt_succ_self k))]
      exact prev

theorem range_succ_filter (k : ℕ) (p : ℕ → Bool) :
    (List.range (k + 1)).filter p =
      (List.range k).filter p ++ if p k then [k] else [] := by
  rw [List.range_succ, List.filter_append]
  by_cases hp : p k
  · simp [hp]
  · simp [hp]

theorem memberSum_append (pts : List Point3) (ind : List ℕ) (k : ℕ) :
    memberSum pts (ind ++ [k]) = (memberSum pts ind).add (pts.getD k Point3.zero) := by
  rw [memberSum, List.foldl_append]
  rfl

/-! Traversal principle for pass 2 and structure of finalization. -/

theorem getD_zip_pair {α β : Type} (l1 : List α) (l2 : List β) (k : ℕ)
    (h : k < (l1.zip l2).length) (e : α × β) (d1 : α) (d2 : β) :
    (l1.zip l2).getD k e = (l1.getD k d1, l2.getD k d2) := by
  have h1 : k < l1.length := lt_of_lt_of_le h (by simp [List.length_zip])
  have h2 : k < l2.length := lt_of_lt_of_le h (by simp [List.length_zip])
  rw [List.getD_eq_getElem _ _ h, List.getD_eq_getElem _ _ h1, List.getD_eq_getElem _ _ h2]
  exact List.getElem_zip

theorem pass2_inv (ms : ℤ → Point3) (rs : ℤ → ℕ) (minPts maxSize : ℤ)
    (labels : List ℕ) (ccs : List ℤ) (Inv : ℕ → BlobMat × (ℤ → ℤ) → Prop)
    (hstep : ∀ k st, k < (labels.zip ccs).length → Inv k st →
      Inv (k + 1) (pass2Step ms rs minPts maxSize st k (labels.getD k 0) (ccs.getD k (-1)))) :
    ∀ rest k st, rest = (labels.zip ccs).drop k → Inv k st →
      Inv (k + rest.length) (pass2 ms rs minPts maxSize k rest st) := by
  intro rest
  induction rest with
  | nil => intro k st _ hinv; simpa [pass2] using hinv
  | cons p rest ih =>
      intro k st hdrop hinv
      have hk : k < (labels.zip ccs).length := by
        by_contra hge
        rw [List.drop_eq_nil_of_le (le_of_not_lt hge)] at hdrop
        exact List.cons_ne_nil p rest hdrop
      have hdecomp := List.drop_eq_getElem_cons hk
      rw [hdecomp] at hdrop
      have hp : p = (labels.zip ccs)[k] := (List.cons_eq_cons.mp hdrop).1
      have hrest : rest = (labels.zip ccs).drop (k + 1) :=
        (List.cons_eq_cons.mp hdrop).2
      have hpD : p = (labels.getD k 0, ccs.getD k (-1)) := by
        rw [hp, ← List.getD_eq_getElem _ (0, (-1 : ℤ)) hk,
          getD_zip_pair labels ccs k hk _ 0 (-1)]
      have hstep1 := hstep k st hk hinv
      have := ih (k + 1) (pass2Step ms rs minPts maxSize st k (labels.getD k 0) (ccs.getD k (-1)))
        hrest hstep1
      have harith : k + (p :: rest).length = (k + 1) + rest.length := by
        simp [List.length_cons]
        omega
      rw [harith]
      rw [show pass2 ms rs minPts maxSize k (p :: rest) st =
        pass2 ms rs minPts maxSize (k + 1) rest
          (pass2Step ms rs minPts maxSize st k p.1 p.2) from rfl]
      rw [hpD]
      exact this

theorem pass2_inv_full (ms : ℤ → Point3) (rs : ℤ → ℕ) (minPts maxSize : ℤ)
    (labels : List ℕ) (ccs : List ℤ) (Inv : ℕ → BlobMat × (ℤ → ℤ) → Prop)
    (hstep : ∀ k st, k < (labels.zip ccs).length → Inv k st →
      Inv (k + 1) (pass2Step ms rs minPts maxSize st k (labels.getD k 0) (ccs.getD k (-1))))
    (st : BlobMat × (ℤ → ℤ)) (hinit : Inv 0 st) :
    Inv (labels.zip ccs).length (pass2 ms rs minPts maxSize 0 (labels.zip ccs) st) := by
  have := pass2_inv ms rs minPts maxSize labels ccs Inv hstep (labels.zip ccs) 0 st (by simp) hinit
  simpa using this

theorem assignList_length (g s : ℤ) (l : List Blob) :
    (assignList g s l).length = l.length := by
  induction l generalizing g s with
  | nil => rfl
  | cons b t ih => simp [assignList, ih]

theorem finalize_length (g : ℤ) (bm : BlobMat) : (finalize g bm).length = bm.length := by
  induction bm generalizing g with
  | nil => rfl
  | cons l rest ih => simp [finalize, ih]

theorem assignList_getD (g s : ℤ) (l : List Blob) (i : ℕ) (h : i < l.length) :
    (assignList g s l).getD i default =
      { l.getD i default with id := g + i, lid := s + i } := by
  induction l generalizing g s i with
  | nil => simp at h
  | cons b t ih => cases i with
    | zero => simp [assignList, List.getD]
    | succ i =>
        simp only [List.length_cons, Nat.succ_lt_succ_iff] at h
        have := ih (g + 1) (s + 1) i h
        simp only [assignList, List.getD_cons_succ]
        rw [this]
        have h1 : g + 1 + (i : ℤ) = g + ((i + 1 : ℕ) : ℤ) := by push_cast; ring
        have h2 : s + 1 + (i : ℤ) = s + ((i + 1 : ℕ) : ℤ) := by push_cast; ring
        rw [h1, h2]

theorem finalize_getD_ex (g : ℤ) (bm : BlobMat) (l : ℕ) (h : l < bm.length) :
    ∃ g' : ℤ, (finalize g bm).getD l [] = assignList g' 0 (bm.getD l []) := by
  induction bm generalizing g l with
  | nil => simp at h
  | cons hd rest ih => cases l with
    | zero => exact ⟨g, rfl⟩
    | succ l =>
        simp only [List.length_cons, Nat.succ_lt_succ_iff] at h
        exact ih (g + (hd.length : ℤ)) l h

/-! Finalization assigns consecutive ids and positional lids. -/

theorem assignList_map_id (g s : ℤ) (l : List Blob) :
    (assignList g s l).map Blob.id = (List.range l.length).map (fun i : ℕ => g + (i : ℤ)) := by
  induction l generalizing g s with
  | nil => rfl
  | cons b t ih =>
      simp only [assignList, List.map_cons, List.length_cons]
      rw [ih (g + 1) (s + 1), List.range_succ_eq_map]
      refine List.cons_eq_cons.mpr ⟨by simp, ?_⟩
      rw [List.map_map]
      refine List.map_congr_left (fun i _ => ?_)
      simp only [Function.comp_apply]
      push_cast
      ring

theorem assignList_map_lid (g s : ℤ) (l : List Blob) :
    (assignList g s l).map Blob.lid = (List.range l.length).map (fun i : ℕ => s + (i : ℤ)) := by
  induction l generalizing g s with
  | nil => rfl
  | cons b t ih =>
      simp only [assignList, List.map_cons, List.length_cons]
      rw [ih (g + 1) (s + 1), List.range_succ_eq_map]
      refine List.cons_eq_cons.mpr ⟨by simp, ?_⟩
      rw [List.map_map]
      refine List.map_congr_left (fun i _ => ?_)
      simp only [Function.comp_apply]
      push_cast
      ring

theorem finalize_flatten_id (g : ℤ) (bm : BlobMat) :
    (finalize g bm).flatten.map Blob.id =
      (List.range ((bm.map List.length).sum)).map (fun i : ℕ => g + (i : ℤ)) := by
  induction bm generalizing g with
  | nil => rfl
  | cons l rest ih =>
      simp only [finalize, List.flatten_cons, List.map_append, List.map_cons, List.sum_cons]
      rw [assignList_map_id, ih (g + (l.length : ℤ))]
      have hr : List.range (l.length + (rest.map List.length).sum) =
          List.range l.length ++
            (List.range ((rest.map List.length).sum)).map (fun i => l.length + i) := by
        simpa using List.range_add l.length ((rest.map List.length).sum)
      rw [hr, List.map_append, List.map_map]
      congr 1
      refine List.map_congr_left (fun i _ => ?_)
      simp only [Function.comp_apply]
      push_cast
      ring

theorem mem_finalize (g : ℤ) (bm : BlobMat) (l' : List Blob) (h : l' ∈ finalize g bm) :
    ∃ g' lst, lst ∈ bm ∧ l' = assignList g' 0 lst := by
  induction bm generalizing g with
  | nil => simp [finalize] at h
  | cons l rest ih =>
      rcases List.mem_cons.mp h with h | h
      · exact ⟨g, l, List.mem_cons_self _ _, h⟩
      · rcases ih (g + (l.length : ℤ)) h with ⟨g', lst, hmem, heq⟩
        exact ⟨g', lst, List.mem_cons_of_mem _ hmem, heq⟩

theorem finalize_map_lid (g : ℤ) (bm : BlobMat) :
    ∀ l' ∈ finalize g bm, l'.map Blob.lid = (List.range l'.length).map (fun i : ℕ => (i : ℤ)) := by
  intro l' h
  rcases mem_finalize g bm l' h with ⟨g', lst, _, rfl⟩
  rw [assignList_map_lid, assignList_length]
  refine List.map_congr_left (fun i _ => ?_)
  ring

/-! The invariant of the second per-pixel loop. -/

/-- The blob created at lines 218-226 together with the push of its creating
pixel at line 227. -/
def createdBlob (label : ℕ) (ms : ℤ → Point3) (rs : ℤ → ℕ) (c : ℤ) (k : ℕ) : Blob :=
  { label := label, mean := blobMean ms rs c, indices := [k], id := 0, lid := 0 }

theorem headIdx_mem (b : Blob) (h : b.indices ≠ []) : headIdx b ∈ b.indices := by
  cases hb : b.indices with
  | nil => exact absurd hb h
  | cons j t => simp [headIdx, hb]

theorem headIdx_pushIndex (k : ℕ) (b : Blob) (h : b.indices ≠ []) :
    headIdx (pushIndex k b) = headIdx b := by
  cases hb : b.indices with
  | nil => exact absurd hb h
  | cons j t => simp [headIdx, pushIndex, hb]

theorem modifyAt_eq_of_apply_eq {α : Type} (L : List α) (i : ℕ) (f g : α → α) (d : α)
    (h : i < L.length → f (L.getD i d) = g (L.getD i d)) :
    modifyAt L i f = modifyAt L i g := by
  induction L generalizing i with
  | nil => rfl
  | cons a t ih => cases i with
    | zero =>
        simp only [modifyAt]
        have h0 := h (by simp)
        rw [List.getD_cons_zero] at h0
        rw [h0]
    | succ i =>
        simp only [modifyAt]
        rw [ih i (fun hi => by simpa using h (by simpa using Nat.succ_lt_succ hi))]

theorem pass2Step_skip (ms : ℤ → Point3) (rs : ℤ → ℕ) (minPts maxSize : ℤ)
    (st : BlobMat × (ℤ → ℤ)) (k label : ℕ) (c : ℤ)
    (hpass : ¬ ccPasses ms rs minPts maxSize c = true) :
    pass2Step ms rs minPts maxSize st k label c = st := by
  rw [pass2Step, if_neg hpass]

theorem pass2Step_push (ms : ℤ → Point3) (rs : ℤ → ℕ) (minPts maxSize : ℤ)
    (st : BlobMat × (ℤ → ℤ)) (k label : ℕ) (c : ℤ)
    (hpass : ccPasses ms rs minPts maxSize c = true) (hre : ¬ st.2 c = -1) :
    pass2Step ms rs minPts maxSize st k label c =
      (modifyAt st.1 label (fun lst => modifyAt lst (st.2 c).toNat (pushIndex k)), st.2) := by
  rw [pass2Step, if_pos hpass, if_neg hre]

theorem pass2Step_create (ms : ℤ → Point3) (rs : ℤ → ℕ) (minPts maxSize : ℤ)
    (st : BlobMat × (ℤ → ℤ)) (k label : ℕ) (c : ℤ)
    (hpass : ccPasses ms rs minPts maxSize c = true) (hre : st.2 c = -1) :
    pass2Step ms rs minPts maxSize st k label c =
      (modifyAt st.1 label (fun lst => lst ++ [createdBlob label ms rs c k]),
       Function.update st.2 c (((st.1.getD label []).length : ℕ) : ℤ)) := by
  rw [pass2Step, if_pos hpass, if_pos hre]
  simp only []
  rw [modifyAt_modifyAt]
  have h1 : modifyAt st.1 label
      (fun x => modifyAt (x ++ [newBlob label ms rs c]) (st.1.getD label []).length (pushIndex k)) =
      modifyAt st.1 label (fun lst => lst ++ [createdBlob label ms rs c k]) := by
    apply modifyAt_eq_of_apply_eq _ _ _ _ []
    intro _
    rw [modifyAt_append_length]
    rfl
  rw [h1]

/-- The per-blob invariant of pass 2, after the first `k` pixels have been
processed: a blob of list `lbl` carries that label; it is nonempty; all its
members are earlier pixels of label `lbl` whose component passes the filter;
its first member is the first pixel of its component; its mean is the
centroid the creation code wrote. -/
structure BlobInv (labels : List ℕ) (ccs : List ℤ) (ms : ℤ → Point3) (rs : ℤ → ℕ)
    (minPts maxSize : ℤ) (lbl k : ℕ) (b : Blob) : Prop where
  label_eq : b.label = lbl
  nonempty : b.indices ≠ []
  mem : ∀ j ∈ b.indices, j < k ∧ labels.getD j 0 = lbl ∧
    ccPasses ms rs minPts maxSize (ccs.getD j (-1)) = true
  first : ∀ j, j < headIdx b → ccs.getD j (-1) ≠ ccs.getD (headIdx b) (-1)
  mean_eq : b.mean = blobMean ms rs (ccs.getD (headIdx b) (-1))

/-- The state invariant of pass 2 after the first `k` pixels: the matrix has
one list per part; every blob satisfies `BlobInv`; within a list the creating
pixels are strictly increasing; the remap table is `-1` exactly on the
components with no passing pixel so far, and otherwise points at the blob
created at the component's first pixel, inside the list of that pixel's
label. -/
structure StInv (numParts : ℕ) (labels : List ℕ) (ccs : List ℤ) (ms : ℤ → Point3)
    (rs : ℤ → ℕ) (minPts maxSize : ℤ) (k : ℕ) (st : BlobMat × (ℤ → ℤ)) : Prop where
  len : st.1.length = numParts
  blob : ∀ lbl, lbl < numParts → ∀ b ∈ st.1.getD lbl [],
    BlobInv labels ccs ms rs minPts maxSize lbl k b
  chain : ∀ lbl, lbl < numParts → ∀ i j, i < j → j < (st.1.getD lbl []).length →
    headIdx ((st.1.getD lbl []).getD i default) < headIdx ((st.1.getD lbl []).getD j default)
  remap_lb : ∀ c : ℤ, st.2 c = -1 ∨ 0 ≤ st.2 c
  remap_iff : ∀ c : ℤ, st.2 c ≠ -1 ↔
    (ccPasses ms rs minPts maxSize c = true ∧ ∃ j, j < k ∧ ccs.getD j (-1) = c)
  remap_loc : ∀ c : ℤ, st.2 c ≠ -1 →
    ∃ k0, k0 < k ∧ ccs.getD k0 (-1) = c ∧ (∀ j, j < k0 → ccs.getD j (-1) ≠ c) ∧
      labels.getD k0 0 < numParts ∧
      (st.2 c).toNat < (st.1.getD (labels.getD k0 0) []).length ∧
      headIdx ((st.1.getD (labels.getD k0 0) []).getD (st.2 c).toNat default) = k0

theorem blobInv_mono (labels : List ℕ) (ccs : List ℤ) (ms : ℤ → Point3) (rs : ℤ → ℕ)
    (minPts maxSize : ℤ) (lbl k k' : ℕ) (b : Blob) (hk : k ≤ k')
    (h : BlobInv labels ccs ms rs minPts maxSize lbl k b) :
    BlobInv labels ccs ms rs minPts maxSize lbl k' b :=
  { label_eq := h.label_eq
    nonempty := h.nonempty
    mem := fun j hj => ⟨lt_of_lt_of_le (h.mem j hj).1 hk, (h.mem j hj).2.1, (h.mem j hj).2.2⟩
    first := h.first
    mean_eq := h.mean_eq }

theorem stInv_skip (numParts : ℕ) (labels : List ℕ) (ccs : List ℤ) (ms : ℤ → Point3)
    (rs : ℤ → ℕ) (minPts maxSize : ℤ) (k : ℕ) (st : BlobMat × (ℤ → ℤ))
    (hinv : StInv numParts labels ccs ms rs minPts maxSize k st)
    (hpass : ¬ ccPasses ms rs minPts maxSize (ccs.getD k (-1)) = true) :
    StInv numParts labels ccs ms rs minPts maxSize (k + 1)
      (pass2Step ms rs minPts maxSize st k (labels.getD k 0) (ccs.getD k (-1))) := by
  rw [pass2Step_skip _ _ _ _ _ _ _ _ hpass]
  refine ⟨hinv.len, ?_, hinv.chain, hinv.remap_lb, ?_, ?_⟩
  · intro lbl hl b hb
    exact blobInv_mono _ _ _ _ _ _ lbl k (k + 1) b (Nat.le_succ k) (hinv.blob lbl hl b hb)
  · intro c'
    constructor
    · intro hne
      obtain ⟨hp, j, hj, hcj⟩ := (hinv.remap_iff c').mp hne
      exact ⟨hp, j, Nat.lt_succ_of_lt hj, hcj⟩
    · rintro ⟨hp, j, hj, hcj⟩
      rcases Nat.lt_succ_iff_lt_or_eq.mp hj with hj | rfl
      · exact (hinv.remap_iff c').mpr ⟨hp, j, hj, hcj⟩
      · rw [← hcj] at hp
        exact absurd hp hpass
  · intro c' hne
    obtain ⟨k0, hk0, h1, h2, h3, h4, h5⟩ := hinv.remap_loc c' hne
    exact ⟨k0, Nat.lt_succ_of_lt hk0, h1, h2, h3, h4, h5⟩

theorem stInv_push (numParts : ℕ) (labels : List ℕ) (ccs : List ℤ) (ms : ℤ → Point3)
    (rs : ℤ → ℕ) (minPts maxSize : ℤ) (k : ℕ) (st : BlobMat × (ℤ → ℤ))
    (hinv : StInv numParts labels ccs ms rs minPts maxSize k st)
    (hpass : ccPasses ms rs minPts maxSize (ccs.getD k (-1)) = true)
    (hre : ¬ st.2 (ccs.getD k (-1)) = -1) :
    StInv numParts labels ccs ms rs minPts maxSize (k + 1)
      (pass2Step ms rs minPts maxSize st k (labels.getD k 0) (ccs.getD k (-1))) := by
  rw [pass2Step_push _ _ _ _ _ _ _ _ hpass hre]
  set c := ccs.getD k (-1) with hc
  set l := labels.getD k 0 with hl
  set i := (st.2 c).toNat with hi
  set g := fun lst => modifyAt lst i (pushIndex k) with hg
  have hlen : ∀ lbl, ((modifyAt st.1 l g).getD lbl []).length = (st.1.getD lbl []).length := by
    intro lbl
    rcases eq_or_ne lbl l with rfl | hne
    · by_cases hlL : l < st.1.length
      · rw [getD_modifyAt_eq _ _ _ _ hlL]
        simp only [hg]
        exact modifyAt_length _ _ _
      · rw [modifyAt_oob _ _ _ (le_of_not_lt hlL)]
    · rw [getD_modifyAt_ne _ l lbl _ _ (Ne.symm hne)]
  have hmem2 : ∀ lbl, ∀ b' ∈ (modifyAt st.1 l g).getD lbl [],
      b' ∈ st.1.getD lbl [] ∨
        (lbl = l ∧ i < (st.1.getD l []).length ∧
          b' = pushIndex k ((st.1.getD l []).getD i default)) := by
    intro lbl b' hb'
    rcases eq_or_ne lbl l with rfl | hne
    · by_cases hlL : l < st.1.length
      · rw [getD_modifyAt_eq _ _ _ _ hlL] at hb'
        simp only [hg] at hb'
        rcases mem_modifyAt hb' with h | ⟨hik, hx⟩
        · exact Or.inl h
        · exact Or.inr ⟨rfl, hik, hx⟩
      · rw [modifyAt_oob _ _ _ (le_of_not_lt hlL)] at hb'
        exact Or.inl hb'
    · rw [getD_modifyAt_ne _ l lbl _ _ (Ne.symm hne)] at hb'
      exact Or.inl hb'
  have hheads : ∀ lbl, lbl < numParts → ∀ j, j < (st.1.getD lbl []).length →
      headIdx (((modifyAt st.1 l g).getD lbl []).getD j default) =
        headIdx ((st.1.getD lbl []).getD j default) := by
    intro lbl hlp j hj
    rcases eq_or_ne lbl l with rfl | hne
    · by_cases hlL : l < st.1.length
      · rw [getD_modifyAt_eq _ _ _ _ hlL]
        simp only [hg]
        rcases eq_or_ne j i with rfl | hji
        · rw [getD_modifyAt_eq _ _ _ _ hj]
          exact headIdx_pushIndex k _ (hinv.blob l hlp _ (mem_of_getD _ _ _ hj)).nonempty
        · rw [getD_modifyAt_ne _ i j _ _ (Ne.symm hji)]
      · rw [modifyAt_oob _ _ _ (le_of_not_lt hlL)]
    · rw [getD_modifyAt_ne _ l lbl _ _ (Ne.symm hne)]
  refine ⟨?_, ?_, ?_, hinv.remap_lb, ?_, ?_⟩
  · rw [modifyAt_length]
    exact hinv.len
  · intro lbl hlp b' hb'
    rcases hmem2 lbl b' hb' with h | ⟨hlbl, hik, hbx⟩
    · exact blobInv_mono _ _ _ _ _ _ lbl k (k + 1) b' (Nat.le_succ k) (hinv.blob lbl hlp b' h)
    · subst hlbl
      subst hbx
      have hbmem : (st.1.getD l []).getD i default ∈ st.1.getD l [] := mem_of_getD _ _ _ hik
      have binv := hinv.blob l hlp _ hbmem
      refine ⟨?_, ?_, ?_, ?_, ?_⟩
      · simpa [pushIndex] using binv.label_eq
      · simp [pushIndex]
      · intro j hj
        have hj2 : j ∈ ((st.1.getD l []).getD i default).indices ∨ j = k := by
          simpa [pushIndex] using hj
        rcases hj2 with hjo | hjk
        · obtain ⟨h1, h2, h3⟩ := binv.mem j hjo
          exact ⟨Nat.lt_succ_of_lt h1, h2, h3⟩
        · subst hjk
          exact ⟨Nat.lt_succ_self j, rfl, hpass⟩
      · rw [headIdx_pushIndex k _ binv.nonempty]
        exact binv.first
      · rw [headIdx_pushIndex k _ binv.nonempty]
        simpa [pushIndex] using binv.mean_eq
  · intro lbl hlp i' j' hij hj'
    rw [hlen lbl] at hj'
    rw [hheads lbl hlp i' (lt_trans hij hj'), hheads lbl hlp j' hj']
    exact hinv.chain lbl hlp i' j' hij hj'
  · intro c'
    constructor
    · intro hne
      obtain ⟨hp, j, hj, hcj⟩ := (hinv.remap_iff c').mp hne
      exact ⟨hp, j, Nat.lt_succ_of_lt hj, hcj⟩
    · rintro ⟨hp, j, hj, hcj⟩
      rcases Nat.lt_succ_iff_lt_or_eq.mp hj with hj | rfl
      · exact (hinv.remap_iff c').mpr ⟨hp, j, hj, hcj⟩
      · rw [← hcj]
        exact hre
  · intro c' hne
    obtain ⟨k0, hk0, h1, h2, h3, h4, h5⟩ := hinv.remap_loc c' hne
    refine ⟨k0, Nat.lt_succ_of_lt hk0, h1, h2, h3, ?_, ?_⟩
    · rw [hlen]
      exact h4
    · rw [hheads _ h3 _ h4]
      exact h5

theorem stInv_create (numParts : ℕ) (labels : List ℕ) (ccs : List ℤ) (ms : ℤ → Point3)
    (rs : ℤ → ℕ) (minPts maxSize : ℤ) (k : ℕ) (st : BlobMat × (ℤ → ℤ))
    (hinv : StInv numParts labels ccs ms rs minPts maxSize k st)
    (hlk : labels.getD k 0 < numParts)
    (hpass : ccPasses ms rs minPts maxSize (ccs.getD k (-1)) = true)
    (hre : st.2 (ccs.getD k (-1)) = -1) :
    StInv numParts labels ccs ms rs minPts maxSize (k + 1)
      (pass2Step ms rs minPts maxSize st k (labels.getD k 0) (ccs.getD k (-1))) := by
  rw [pass2Step_create _ _ _ _ _ _ _ _ hpass hre]
  set c := ccs.getD k (-1) with hc
  set l := labels.getD k 0 with hl
  set nb := createdBlob l ms rs c k with hnb
  have hnbh : headIdx nb = k := rfl
  have hlL : l < st.1.length := by
    rw [hinv.len]
    exact hlk
  have hfirst_c : ∀ j, j < k → ccs.getD j (-1) ≠ c := by
    intro j hj hcj
    exact (hinv.remap_iff c).mpr ⟨hpass, j, hj, hcj⟩ hre
  have hgl : (modifyAt st.1 l (fun lst => lst ++ [nb])).getD l [] =
      st.1.getD l [] ++ [nb] :=
    getD_modifyAt_eq _ _ _ _ hlL
  have hgne : ∀ lbl, lbl ≠ l →
      (modifyAt st.1 l (fun lst => lst ++ [nb])).getD lbl [] = st.1.getD lbl [] := by
    intro lbl hne
    exact getD_modifyAt_ne _ l lbl _ _ (Ne.symm hne)
  have hheadlt : ∀ i', i' < (st.1.getD l []).length →
      headIdx ((st.1.getD l []).getD i' default) < k := by
    intro i' hi'
    have binv := hinv.blob l hlk _ (mem_of_getD (st.1.getD l []) i' default hi')
    exact (binv.mem _ (headIdx_mem _ binv.nonempty)).1
  refine ⟨?_, ?_, ?_, ?_, ?_, ?_⟩ <;> dsimp only
  · rw [modifyAt_length]
    exact hinv.len
  · intro lbl hlp b' hb'
    rcases eq_or_ne lbl l with rfl | hne
    · rw [hgl] at hb'
      rcases List.mem_append.mp hb' with hbo | hbn
      · exact blobInv_mono _ _ _ _ _ _ l k (k + 1) b' (Nat.le_succ k) (hinv.blob l hlp b' hbo)
      · have hb2 : b' = nb := by simpa using hbn
        subst hb2
        refine ⟨rfl, by simp [hnb, createdBlob], ?_, ?_, rfl⟩
        · intro j hj
          have hj2 : j = k := by simpa [hnb, createdBlob] using hj
          subst hj2
          exact ⟨Nat.lt_succ_self j, rfl, hpass⟩
        · intro j hj
          rw [hnbh] at hj ⊢
          exact hfirst_c j hj
    · rw [hgne lbl hne] at hb'
      exact blobInv_mono _ _ _ _ _ _ lbl k (k + 1) b' (Nat.le_succ k) (hinv.blob lbl hlp b' hb')
  · intro lbl hlp i' j' hij hj'
    rcases eq_or_ne lbl l with rfl | hne
    · rw [hgl] at hj' ⊢
      rw [List.length_append, List.length_singleton] at hj'
      rcases Nat.lt_succ_iff_lt_or_eq.mp hj' with hj2 | rfl
      · rw [getD_append_lt _ _ _ _ hj2, getD_append_lt _ _ _ _ (lt_trans hij hj2)]
        exact hinv.chain l hlp i' j' hij hj2
      · rw [getD_append_length, getD_append_lt _ _ _ _ hij, hnbh]
        exact hheadlt i' hij
    · rw [hgne lbl hne] at hj' ⊢
      exact hinv.chain lbl hlp i' j' hij hj'
  · intro c'
    rcases eq_or_ne c' c with rfl | hne
    · rw [Function.update_same]
      exact Or.inr (Int.natCast_nonneg _)
    · rw [Function.update_noteq hne]
      exact hinv.remap_lb c'
  · intro c'
    rcases eq_or_ne c' c with rfl | hne
    · rw [Function.update_same]
      constructor
      · intro _
        exact ⟨hpass, k, Nat.lt_succ_self k, hc.symm⟩
      · intro _
        omega
    · rw [Function.update_noteq hne]
      constructor
      · intro hne2
        obtain ⟨hp, j, hj, hcj⟩ := (hinv.remap_iff c').mp hne2
        exact ⟨hp, j, Nat.lt_succ_of_lt hj, hcj⟩
      · rintro ⟨hp, j, hj, hcj⟩
        rcases Nat.lt_succ_iff_lt_or_eq.mp hj with hj2 | rfl
        · exact (hinv.remap_iff c').mpr ⟨hp, j, hj2, hcj⟩
        · have hcc : c' = c := by
            rw [hc]
            exact hcj.symm
          exact absurd hcc hne
  · intro c' hne2
    rcases eq_or_ne c' c with rfl | hne
    · refine ⟨k, Nat.lt_succ_self k, hc.symm, hfirst_c, hlk, ?_, ?_⟩
      · rw [Function.update_same, Int.toNat_natCast, hgl, List.length_append]
        simp
      · rw [Function.update_same, Int.toNat_natCast, hgl, getD_append_length]
        exact hnbh
    · rw [Function.update_noteq hne] at hne2 ⊢
      obtain ⟨k0, hk0, h1, h2, h3, h4, h5⟩ := hinv.remap_loc c' hne2
      refine ⟨k0, Nat.lt_succ_of_lt hk0, h1, h2, h3, ?_, ?_⟩
      · rcases eq_or_ne (labels.getD k0 0) l with hEq | hne3
        · rw [hEq, hgl, List.length_append, List.length_singleton]
          rw [hEq] at h4
          exact Nat.lt_succ_of_lt h4
        · rw [hgne _ hne3]
          exact h4
      · rcases eq_or_ne (labels.getD k0 0) l with hEq | hne3
        · rw [hEq] at h4 h5
          rw [hEq, hgl, getD_append_lt _ _ _ _ h4]
          exact h5
        · rw [hgne _ hne3]
          exact h5

theorem getD_replicate {α : Type} (d : α) (n i : ℕ) :
    (List.replicate n d).getD i d = d := by
  rcases Nat.lt_or_ge i n with h | h
  · rw [List.getD_eq_getElem _ _ (by simpa using h)]
    exact List.getElem_replicate d _
  · exact getD_oob _ _ _ (by simpa using h)

theorem stInv_init (numParts : ℕ) (labels : List ℕ) (ccs : List ℤ) (ms : ℤ → Point3)
    (rs : ℤ → ℕ) (minPts maxSize : ℤ) :
    StInv numParts labels ccs ms rs minPts maxSize 0
      (List.replicate numParts [], fun _ => -1) := by
  refine ⟨by simp, ?_, ?_, ?_, ?_, ?_⟩
  · intro lbl _ b hb
    rw [show (List.replicate numParts [], fun _ => (-1 : ℤ)).1 = List.replicate numParts [] from rfl,
      getD_replicate] at hb
    simp at hb
  · intro lbl _ i j _ hj
    rw [show (List.replicate numParts [], fun _ => (-1 : ℤ)).1 = List.replicate numParts [] from rfl,
      getD_replicate] at hj
    simp at hj
  · intro c
    exact Or.inl rfl
  · intro c
    constructor
    · intro h
      exact absurd rfl h
    · rintro ⟨_, j, hj, _⟩
      exact absurd hj (Nat.not_lt_zero j)
  · intro c h
    exact absurd rfl h

theorem stInv_step (numParts : ℕ) (labels : List ℕ) (ccs : List ℤ) (ms : ℤ → Point3)
    (rs : ℤ → ℕ) (minPts maxSize : ℤ) (Hlab : ∀ x ∈ labels, x < numParts) :
    ∀ k st, k < (labels.zip ccs).length →
      StInv numParts labels ccs ms rs minPts maxSize k st →
      StInv numParts labels ccs ms rs minPts maxSize (k + 1)
        (pass2Step ms rs minPts maxSize st k (labels.getD k 0) (ccs.getD k (-1))) := by
  intro k st hk hinv
  by_cases hpass : ccPasses ms rs minPts maxSize (ccs.getD k (-1)) = true
  · by_cases hre : st.2 (ccs.getD k (-1)) = -1
    · have hkl : k < labels.length := lt_of_lt_of_le hk (by simp [List.length_zip])
      exact stInv_create numParts labels ccs ms rs minPts maxSize k st hinv
        (Hlab _ (mem_of_getD labels k 0 hkl)) hpass hre
    · exact stInv_push numParts labels ccs ms rs minPts maxSize k st hinv hpass hre
  · exact stInv_skip numParts labels ccs ms rs minPts maxSize k st hinv hpass

theorem stInv_final (numParts : ℕ) (labels : List ℕ) (ccs : List ℤ) (ms : ℤ → Point3)
    (rs : ℤ → ℕ) (minPts maxSize : ℤ) (Hlab : ∀ x ∈ labels, x < numParts) :
    StInv numParts labels ccs ms rs minPts maxSize (labels.zip ccs).length
      (pass2 ms rs minPts maxSize 0 (labels.zip ccs)
        (List.replicate numParts [], fun _ => -1)) :=
  pass2_inv_full ms rs minPts maxSize labels ccs
    (StInv numParts labels ccs ms rs minPts maxSize)
    (stInv_step numParts labels ccs ms rs minPts maxSize Hlab)
    (List.replicate numParts [], fun _ => -1)
    (stInv_init numParts labels ccs ms rs minPts maxSize)

/-! The extra invariant available under the upstream label-homogeneity
assumption: every blob's member list is exactly the list of pixels of its
component seen so far, with matching sums, and the total member count equals
the number of passing pixels seen so far. -/

/-- Total member count of one label's list. -/
def listMembers (lst : List Blob) : ℕ := (lst.map (fun b => b.indices.length)).sum

theorem memberTotal_cons (lst : List Blob) (rest : BlobMat) :
    memberTotal (lst :: rest) = listMembers lst + memberTotal rest := by
  simp [memberTotal, listMembers]

theorem memberTotal_modifyAt (bm : BlobMat) (l : ℕ) (g : List Blob → List Blob)
    (h : l < bm.length) :
    memberTotal (modifyAt bm l g) + listMembers (bm.getD l []) =
      memberTotal bm + listMembers (g (bm.getD l [])) := by
  induction bm generalizing l with
  | nil => simp at h
  | cons hd rest ih =>
      cases l with
      | zero =>
          simp only [modifyAt, memberTotal_cons, List.getD_cons_zero]
          omega
      | succ l =>
          simp only [List.length_cons, Nat.succ_lt_succ_iff] at h
          simp only [modifyAt, memberTotal_cons, List.getD_cons_succ]
          have := ih l h
          omega

theorem listMembers_append (lst : List Blob) (b : Blob) :
    listMembers (lst ++ [b]) = listMembers lst + b.indices.length := by
  simp [listMembers]

theorem listMembers_modifyAt_push (lst : List Blob) (i k : ℕ) (h : i < lst.length) :
    listMembers (modifyAt lst i (pushIndex k)) = listMembers lst + 1 := by
  induction lst generalizing i with
  | nil => simp at h
  | cons b t ih =>
      cases i with
      | zero =>
          simp only [modifyAt, listMembers, List.map_cons, List.sum_cons, pushIndex]
          simp
          omega
      | succ i =>
          simp only [List.length_cons, Nat.succ_lt_succ_iff] at h
          have := ih i h
          simp only [modifyAt, listMembers, List.map_cons, List.sum_cons] at this ⊢
          omega

structure HomInv (numParts : ℕ) (labels : List ℕ) (ccs : List ℤ) (pts : List Point3)
    (ms : ℤ → Point3) (rs : ℤ → ℕ) (minPts maxSize : ℤ) (k : ℕ)
    (st : BlobMat × (ℤ → ℤ)) : Prop where
  indices_eq : ∀ lbl, lbl < numParts → ∀ b ∈ st.1.getD lbl [],
    b.indices = (List.range k).filter
      (fun j => decide (ccs.getD j (-1) = ccs.getD (headIdx b) (-1)))
  msum : ∀ lbl, lbl < numParts → ∀ b ∈ st.1.getD lbl [],
    memberSum pts b.indices = takeSum ccs pts k (ccs.getD (headIdx b) (-1)) ∧
    b.indices.length = takeCount ccs pts k (ccs.getD (headIdx b) (-1))
  total : memberTotal st.1 =
    ((List.range k).filter (fun j => ccPasses ms rs minPts maxSize (ccs.getD j (-1)))).length

theorem homInv_skip (numParts : ℕ) (labels : List ℕ) (ccs : List ℤ) (pts : List Point3)
    (ms : ℤ → Point3) (rs : ℤ → ℕ) (minPts maxSize : ℤ) (k : ℕ) (st : BlobMat × (ℤ → ℤ))
    (hS : StInv numParts labels ccs ms rs minPts maxSize k st)
    (hH : HomInv numParts labels ccs pts ms rs minPts maxSize k st)
    (hk : k < (labels.zip ccs).length) (Hlen2 : ccs.length = pts.length)
    (hpass : ¬ ccPasses ms rs minPts maxSize (ccs.getD k (-1)) = true) :
    HomInv numParts labels ccs pts ms rs minPts maxSize (k + 1)
      (pass2Step ms rs minPts maxSize st k (labels.getD k 0) (ccs.getD k (-1))) := by
  rw [pass2Step_skip _ _ _ _ _ _ _ _ hpass]
  have hkcp : k < (ccs.zip pts).length := by
    rw [List.length_zip] at hk ⊢
    omega
  have hne_b : ∀ lbl, lbl < numParts → ∀ b ∈ st.1.getD lbl [],
      ccs.getD k (-1) ≠ ccs.getD (headIdx b) (-1) := by
    intro lbl hlp b hb heq
    have binv := hS.blob lbl hlp b hb
    have hp := (binv.mem _ (headIdx_mem _ binv.nonempty)).2.2
    rw [← heq] at hp
    exact hpass hp
  refine ⟨?_, ?_, ?_⟩
  · intro lbl hlp b hb
    rw [hH.indices_eq lbl hlp b hb, range_succ_filter,
      if_neg (by simpa using hne_b lbl hlp b hb)]
    simp
  · intro lbl hlp b hb
    obtain ⟨h1, h2⟩ := hH.msum lbl hlp b hb
    rw [takeSum_succ _ _ _ _ hkcp, takeCount_succ _ _ _ _ hkcp,
      if_neg (hne_b lbl hlp b hb), if_neg (hne_b lbl hlp b hb)]
    exact ⟨h1, h2⟩
  · rw [hH.total, range_succ_filter, if_neg (by simpa using hpass)]
    simp

theorem homInv_push (numParts : ℕ) (labels : List ℕ) (ccs : List ℤ) (pts : List Point3)
    (ms : ℤ → Point3) (rs : ℤ → ℕ) (minPts maxSize : ℤ) (k : ℕ) (st : BlobMat × (ℤ → ℤ))
    (hS : StInv numParts labels ccs ms rs minPts maxSize k st)
    (hH : HomInv numParts labels ccs pts ms rs minPts maxSize k st)
    (hk : k < (labels.zip ccs).length) (Hlen2 : ccs.length = pts.length)
    (Hom : LabelHomogeneous labels ccs)
    (hpass : ccPasses ms rs minPts maxSize (ccs.getD k (-1)) = true)
    (hre : ¬ st.2 (ccs.getD k (-1)) = -1) :
    HomInv numParts labels ccs pts ms rs minPts maxSize (k + 1)
      (pass2Step ms rs minPts maxSize st k (labels.getD k 0) (ccs.getD k (-1))) := by
  rw [pass2Step_push _ _ _ _ _ _ _ _ hpass hre]
  obtain ⟨k0, hk0, hck0, hfirst0, hl0p, hpos0, hhead0⟩ := hS.remap_loc _ hre
  have hkc : k < ccs.length := by
    rw [List.length_zip] at hk
    omega
  have hkcp : k < (ccs.zip pts).length := by
    rw [List.length_zip]
    omega
  have hll : labels.getD k0 0 = labels.getD k 0 :=
    Hom k0 (lt_trans hk0 hkc) k hkc hck0
  rw [hll] at hpos0 hhead0 hl0p
  set c := ccs.getD k (-1) with hc
  set l := labels.getD k 0 with hl
  set i := (st.2 c).toNat with hi
  have hLl : l < st.1.length := by
    rw [hS.len]
    exact hl0p
  have hgl : (modifyAt st.1 l (fun lst => modifyAt lst i (pushIndex k))).getD l [] =
      modifyAt (st.1.getD l []) i (pushIndex k) :=
    getD_modifyAt_eq _ _ _ _ hLl
  have hgne : ∀ lbl, lbl ≠ l →
      (modifyAt st.1 l (fun lst => modifyAt lst i (pushIndex k))).getD lbl [] =
        st.1.getD lbl [] := by
    intro lbl hne
    exact getD_modifyAt_ne _ l lbl _ _ (Ne.symm hne)
  have hb0mem : (st.1.getD l []).getD i default ∈ st.1.getD l [] :=
    mem_of_getD _ _ _ hpos0
  have hb0inv := hS.blob l hl0p _ hb0mem
  have hb0cc : ccs.getD (headIdx ((st.1.getD l []).getD i default)) (-1) = c := by
    rw [hhead0]
    exact hck0
  have hcb_ne : ∀ lbl, lbl < numParts → ∀ q, q < (st.1.getD lbl []).length →
      (lbl ≠ l ∨ q ≠ i) →
      ccs.getD (headIdx ((st.1.getD lbl []).getD q default)) (-1) ≠ c := by
    intro lbl hlp q hq hor heq
    have hmemq := mem_of_getD (st.1.getD lbl []) q default hq
    have binv := hS.blob lbl hlp _ hmemq
    have hhb : headIdx ((st.1.getD lbl []).getD q default) = k0 := by
      rcases Nat.lt_trichotomy (headIdx ((st.1.getD lbl []).getD q default)) k0 with h | h | h
      · exact absurd heq (hfirst0 _ h)
      · exact h
      · exact absurd (by rw [hck0, heq]) (binv.first k0 h)
    have hlab_head := (binv.mem _ (headIdx_mem _ binv.nonempty)).2.1
    rw [hhb] at hlab_head
    have hlbl : lbl = l := by
      rw [← hlab_head, hll]
    subst hlbl
    have hqi : q = i := by
      rcases Nat.lt_trichotomy q i with h | h | h
      · have hchain := hS.chain l hlp q i h hpos0
        rw [hhb, hhead0] at hchain
        exact absurd hchain (lt_irrefl k0)
      · exact h
      · have hchain := hS.chain l hlp i q h hq
        rw [hhb, hhead0] at hchain
        exact absurd hchain (lt_irrefl k0)
    rcases hor with h | h
    · exact h rfl
    · exact h hqi
  refine ⟨?_, ?_, ?_⟩ <;> dsimp only
  · intro lbl hlp b' hb'
    rcases eq_or_ne lbl l with heql | hne
    · subst heql
      rw [hgl] at hb'
      obtain ⟨q, hq, hbq⟩ := List.getElem_of_mem hb'
      have hq2 : q < (st.1.getD l []).length := by
        rw [modifyAt_length] at hq
        exact hq
      have hbq2 : b' = (modifyAt (st.1.getD l []) i (pushIndex k)).getD q default := by
        rw [List.getD_eq_getElem _ _ hq]
        exact hbq.symm
      rcases eq_or_ne q i with heqq | hqi
      · subst heqq
        rw [getD_modifyAt_eq _ _ _ _ hq2] at hbq2
        subst hbq2
        have hhp : headIdx (pushIndex k ((st.1.getD l []).getD i default)) = k0 := by
          rw [headIdx_pushIndex _ _ hb0inv.nonempty]
          exact hhead0
        rw [hhp]
        rw [show ccs.getD k0 (-1) = c from hck0]
        have hold := hH.indices_eq l hlp _ hb0mem
        rw [hb0cc] at hold
        show ((st.1.getD l []).getD i default).indices ++ [k] = _
        rw [range_succ_filter, if_pos (by rw [← hc]; simp), hold]
      · rw [getD_modifyAt_ne _ i q _ _ (Ne.symm hqi)] at hbq2
        subst hbq2
        have hmemq := mem_of_getD (st.1.getD l []) q default hq2
        have hold := hH.indices_eq l hlp _ hmemq
        have hnec := hcb_ne l hlp q hq2 (Or.inr hqi)
        have hne2 : ¬ ccs.getD k (-1) =
            ccs.getD (headIdx ((st.1.getD l []).getD q default)) (-1) := by
          rw [← hc]
          exact fun h => hnec h.symm
        rw [hold, range_succ_filter, if_neg (by simpa using hne2)]
        simp
    · rw [hgne lbl hne] at hb'
      obtain ⟨q, hq, hbq⟩ := List.getElem_of_mem hb'
      have hbq2 : b' = (st.1.getD lbl []).getD q default := by
        rw [List.getD_eq_getElem _ _ hq]
        exact hbq.symm
      subst hbq2
      have hold := hH.indices_eq lbl hlp _ hb'
      have hnec := hcb_ne lbl hlp q hq (Or.inl hne)
      have hne2 : ¬ ccs.getD k (-1) =
          ccs.getD (headIdx ((st.1.getD lbl []).getD q default)) (-1) := by
        rw [← hc]
        exact fun h => hnec h.symm
      rw [hold, range_succ_filter, if_neg (by simpa using hne2)]
      simp
  · intro lbl hlp b' hb'
    rcases eq_or_ne lbl l with heql | hne
    · subst heql
      rw [hgl] at hb'
      obtain ⟨q, hq, hbq⟩ := List.getElem_of_mem hb'
      have hq2 : q < (st.1.getD l []).length := by
        rw [modifyAt_length] at hq
        exact hq
      have hbq2 : b' = (modifyAt (st.1.getD l []) i (pushIndex k)).getD q default := by
        rw [List.getD_eq_getElem _ _ hq]
        exact hbq.symm
      rcases eq_or_ne q i with heqq | hqi
      · subst heqq
        rw [getD_modifyAt_eq _ _ _ _ hq2] at hbq2
        subst hbq2
        have hhp : headIdx (pushIndex k ((st.1.getD l []).getD i default)) = k0 := by
          rw [headIdx_pushIndex _ _ hb0inv.nonempty]
          exact hhead0
        rw [hhp, show ccs.getD k0 (-1) = c from hck0]
        obtain ⟨hs1, hs2⟩ := hH.msum l hlp _ hb0mem
        rw [hb0cc] at hs1 hs2
        constructor
        · show memberSum pts (((st.1.getD l []).getD i default).indices ++ [k]) = _
          rw [memberSum_append, hs1, takeSum_succ _ _ _ _ hkcp, if_pos (by rw [← hc])]
        · show ((((st.1.getD l []).getD i default)).indices ++ [k]).length = _
          rw [List.length_append, takeCount_succ _ _ _ _ hkcp, if_pos (by rw [← hc]), hs2]
          simp
      · rw [getD_modifyAt_ne _ i q _ _ (Ne.symm hqi)] at hbq2
        subst hbq2
        have hmemq := mem_of_getD (st.1.getD l []) q default hq2
        obtain ⟨hs1, hs2⟩ := hH.msum l hlp _ hmemq
        have hnec := hcb_ne l hlp q hq2 (Or.inr hqi)
        have hne2 : ¬ ccs.getD k (-1) =
            ccs.getD (headIdx ((st.1.getD l []).getD q default)) (-1) := by
          rw [← hc]
          exact fun h => hnec h.symm
        rw [takeSum_succ _ _ _ _ hkcp, takeCount_succ _ _ _ _ hkcp,
          if_neg hne2, if_neg hne2]
        exact ⟨hs1, hs2⟩
    · rw [hgne lbl hne] at hb'
      obtain ⟨q, hq, hbq⟩ := List.getElem_of_mem hb'
      have hbq2 : b' = (st.1.getD lbl []).getD q default := by
        rw [List.getD_eq_getElem _ _ hq]
        exact hbq.symm
      subst hbq2
      obtain ⟨hs1, hs2⟩ := hH.msum lbl hlp _ hb'
      have hnec := hcb_ne lbl hlp q hq (Or.inl hne)
      have hne2 : ¬ ccs.getD k (-1) =
          ccs.getD (headIdx ((st.1.getD lbl []).getD q default)) (-1) := by
        rw [← hc]
        exact fun h => hnec h.symm
      rw [takeSum_succ _ _ _ _ hkcp, takeCount_succ _ _ _ _ hkcp,
        if_neg hne2, if_neg hne2]
      exact ⟨hs1, hs2⟩
  · have hmt := memberTotal_modifyAt st.1 l (fun lst => modifyAt lst i (pushIndex k)) hLl
    have hg1 : listMembers (modifyAt (st.1.getD l []) i (pushIndex k)) =
        listMembers (st.1.getD l []) + 1 :=
      listMembers_modifyAt_push _ _ _ hpos0
    rw [range_succ_filter, if_pos (by rw [← hc]; exact hpass), List.length_append,
      ← hH.total]
    simp only [hg1] at hmt
    simp only [List.length_singleton]
    omega

theorem homInv_create (numParts : ℕ) (labels : List ℕ) (ccs : List ℤ) (pts : List Point3)
    (ms : ℤ → Point3) (rs : ℤ → ℕ) (minPts maxSize : ℤ) (k : ℕ) (st : BlobMat × (ℤ → ℤ))
    (hS : StInv numParts labels ccs ms rs minPts maxSize k st)
    (hH : HomInv numParts labels ccs pts ms rs minPts maxSize k st)
    (hk : k < (labels.zip ccs).length) (Hlen2 : ccs.length = pts.length)
    (hlk : labels.getD k 0 < numParts)
    (hpass : ccPasses ms rs minPts maxSize (ccs.getD k (-1)) = true)
    (hre : st.2 (ccs.getD k (-1)) = -1) :
    HomInv numParts labels ccs pts ms rs minPts maxSize (k + 1)
      (pass2Step ms rs minPts maxSize st k (labels.getD k 0) (ccs.getD k (-1))) := by
  rw [pass2Step_create _ _ _ _ _ _ _ _ hpass hre]
  have hkc : k < ccs.length := by
    rw [List.length_zip] at hk
    omega
  have hkcp : k < (ccs.zip pts).length := by
    rw [List.length_zip]
    omega
  set c := ccs.getD k (-1) with hc
  set l := labels.getD k 0 with hl
  set nb := createdBlob l ms rs c k with hnb
  have hnbh : headIdx nb = k := rfl
  have hLl : l < st.1.length := by
    rw [hS.len]
    exact hlk
  have hfirst_c : ∀ j, j < k → ccs.getD j (-1) ≠ c := by
    intro j hj hcj
    exact (hS.remap_iff c).mpr ⟨hpass, j, hj, hcj⟩ hre
  have hgl : (modifyAt st.1 l (fun lst => lst ++ [nb])).getD l [] =
      st.1.getD l [] ++ [nb] :=
    getD_modifyAt_eq _ _ _ _ hLl
  have hgne : ∀ lbl, lbl ≠ l →
      (modifyAt st.1 l (fun lst => lst ++ [nb])).getD lbl [] = st.1.getD lbl [] := by
    intro lbl hne
    exact getD_modifyAt_ne _ l lbl _ _ (Ne.symm hne)
  have hcb_ne : ∀ lbl, lbl < numParts → ∀ b' ∈ st.1.getD lbl [],
      ccs.getD (headIdx b') (-1) ≠ c := by
    intro lbl hlp b' hb' heq
    have binv := hS.blob lbl hlp b' hb'
    exact hfirst_c _ (binv.mem _ (headIdx_mem _ binv.nonempty)).1 heq
  have hfilter_nil : (List.range k).filter (fun j => decide (ccs.getD j (-1) = c)) = [] := by
    rw [List.filter_eq_nil_iff]
    intro a ha
    simp only [decide_eq_true_eq]
    exact hfirst_c a (List.mem_range.mp ha)
  have htz := takeSum_eq_zero ccs pts k c (le_of_lt hkcp) hfirst_c
  have hold_ext : ∀ lbl, lbl < numParts → ∀ b' ∈ st.1.getD lbl [],
      (List.range (k + 1)).filter
          (fun j => decide (ccs.getD j (-1) = ccs.getD (headIdx b') (-1))) =
        (List.range k).filter
          (fun j => decide (ccs.getD j (-1) = ccs.getD (headIdx b') (-1))) := by
    intro lbl hlp b' hb'
    have hne2 : ¬ ccs.getD k (-1) = ccs.getD (headIdx b') (-1) := by
      rw [← hc]
      exact fun h => hcb_ne lbl hlp b' hb' h.symm
    rw [range_succ_filter, if_neg (by simpa using hne2)]
    simp
  refine ⟨?_, ?_, ?_⟩ <;> dsimp only
  · intro lbl hlp b' hb'
    rcases eq_or_ne lbl l with heql | hne
    · subst heql
      rw [hgl] at hb'
      rcases List.mem_append.mp hb' with hbo | hbn
      · rw [hold_ext l hlp b' hbo]
        exact hH.indices_eq l hlp b' hbo
      · have hb2 : b' = nb := by simpa using hbn
        subst hb2
        rw [hnbh, ← hc, range_succ_filter, if_pos (by rw [← hc]; simp), hfilter_nil]
        rfl
    · rw [hgne lbl hne] at hb'
      rw [hold_ext lbl hlp b' hb']
      exact hH.indices_eq lbl hlp b' hb'
  · intro lbl hlp b' hb'
    rcases eq_or_ne lbl l with heql | hne
    · subst heql
      rw [hgl] at hb'
      rcases List.mem_append.mp hb' with hbo | hbn
      · obtain ⟨hs1, hs2⟩ := hH.msum l hlp b' hbo
        have hne2 : ¬ ccs.getD k (-1) = ccs.getD (headIdx b') (-1) := by
          rw [← hc]
          exact fun h => hcb_ne l hlp b' hbo h.symm
        rw [takeSum_succ _ _ _ _ hkcp, takeCount_succ _ _ _ _ hkcp,
          if_neg hne2, if_neg hne2]
        exact ⟨hs1, hs2⟩
      · have hb2 : b' = nb := by simpa using hbn
        subst hb2
        rw [hnbh, ← hc]
        constructor
        · rw [takeSum_succ _ _ _ _ hkcp, if_pos (by rw [← hc]), htz.1]
          rfl
        · rw [takeCount_succ _ _ _ _ hkcp, if_pos (by rw [← hc]), htz.2]
          rfl
    · rw [hgne lbl hne] at hb'
      obtain ⟨hs1, hs2⟩ := hH.msum lbl hlp b' hb'
      have hne2 : ¬ ccs.getD k (-1) = ccs.getD (headIdx b') (-1) := by
        rw [← hc]
        exact fun h => hcb_ne lbl hlp b' hb' h.symm
      rw [takeSum_succ _ _ _ _ hkcp, takeCount_succ _ _ _ _ hkcp,
        if_neg hne2, if_neg hne2]
      exact ⟨hs1, hs2⟩
  · have hmt := memberTotal_modifyAt st.1 l (fun lst => lst ++ [nb]) hLl
    have hg1 : listMembers (st.1.getD l [] ++ [nb]) = listMembers (st.1.getD l []) + 1 := by
      rw [listMembers_append]
      rfl
    rw [range_succ_filter, if_pos (by rw [← hc]; exact hpass), List.length_append,
      ← hH.total]
    simp only [hg1] at hmt
    simp only [List.length_singleton]
    omega

theorem memberTotal_replicate (n : ℕ) : memberTotal (List.replicate n []) = 0 := by
  induction n with
  | zero => rfl
  | succ n ih =>
      rw [List.replicate_succ, memberTotal_cons, ih]
      simp [listMembers]

theorem homInv_init (numParts : ℕ) (labels : List ℕ) (ccs : List ℤ) (pts : List Point3)
    (ms : ℤ → Point3) (rs : ℤ → ℕ) (minPts maxSize : ℤ) :
    HomInv numParts labels ccs pts ms rs minPts maxSize 0
      (List.replicate numParts [], fun _ => -1) := by
  refine ⟨?_, ?_, ?_⟩
  · intro lbl _ b hb
    rw [show (List.replicate numParts [], fun _ => (-1 : ℤ)).1 = List.replicate numParts []
      from rfl, getD_replicate] at hb
    simp at hb
  · intro lbl _ b hb
    rw [show (List.replicate numParts [], fun _ => (-1 : ℤ)).1 = List.replicate numParts []
      from rfl, getD_replicate] at hb
    simp at hb
  · rw [show (List.replicate numParts [], fun _ => (-1 : ℤ)).1 = List.replicate numParts []
      from rfl, memberTotal_replicate]
    rfl

theorem bothInv_final (numParts : ℕ) (labels : List ℕ) (ccs : List ℤ) (pts : List Point3)
    (ms : ℤ → Point3) (rs : ℤ → ℕ) (minPts maxSize : ℤ)
    (Hlab : ∀ x ∈ labels, x < numParts) (Hlen2 : ccs.length = pts.length)
    (Hom : LabelHomogeneous labels ccs) :
    StInv numParts labels ccs ms rs minPts maxSize (labels.zip ccs).length
      (pass2 ms rs minPts maxSize 0 (labels.zip ccs)
        (List.replicate numParts [], fun _ => -1)) ∧
    HomInv numParts labels ccs pts ms rs minPts maxSize (labels.zip ccs).length
      (pass2 ms rs minPts maxSize 0 (labels.zip ccs)
        (List.replicate numParts [], fun _ => -1)) := by
  refine pass2_inv_full ms rs minPts maxSize labels ccs
    (fun k st => StInv numParts labels ccs ms rs minPts maxSize k st ∧
      HomInv numParts labels ccs pts ms rs minPts maxSize k st) ?_ _
    ⟨stInv_init numParts labels ccs ms rs minPts maxSize,
     homInv_init numParts labels ccs pts ms rs minPts maxSize⟩
  intro k st hk hSH
  obtain ⟨hS, hH⟩ := hSH
  refine ⟨stInv_step numParts labels ccs ms rs minPts maxSize Hlab k st hk hS, ?_⟩
  by_cases hpass : ccPasses ms rs minPts maxSize (ccs.getD k (-1)) = true
  · by_cases hre : st.2 (ccs.getD k (-1)) = -1
    · have hkl : k < labels.length := by
        rw [List.length_zip] at hk
        omega
      exact homInv_create numParts labels ccs pts ms rs minPts maxSize k st hS hH hk Hlen2
        (Hlab _ (mem_of_getD labels k 0 hkl)) hpass hre
    · exact homInv_push numParts labels ccs pts ms rs minPts maxSize k st hS hH hk Hlen2
        Hom hpass hre
  · exact homInv_skip numParts labels ccs pts ms rs minPts maxSize k st hS hH hk Hlen2 hpass

/-! Finalization preserves everything except `id` and `lid`. -/

theorem mem_assignList (g s : ℤ) (lst : List Blob) (b : Blob) (h : b ∈ assignList g s lst) :
    ∃ orig ∈ lst, ∃ gid lv : ℤ, b = { orig with id := gid, lid := lv } := by
  induction lst generalizing g s with
  | nil => simp [assignList] at h
  | cons hd t ih =>
      rcases List.mem_cons.mp h with h | h
      · exact ⟨hd, List.mem_cons_self _ _, g, s, h⟩
      · obtain ⟨orig, hmem, gid, lv, heq⟩ := ih (g + 1) (s + 1) h
        exact ⟨orig, List.mem_cons_of_mem _ hmem, gid, lv, heq⟩

theorem listMembers_assignList (g s : ℤ) (lst : List Blob) :
    listMembers (assignList g s lst) = listMembers lst := by
  induction lst generalizing g s with
  | nil => rfl
  | cons hd t ih => simp [assignList, listMembers] at ih ⊢; exact ih (g+1) (s+1)

theorem memberTotal_finalize (g : ℤ) (bm : BlobMat) :
    memberTotal (finalize g bm) = memberTotal bm := by
  induction bm generalizing g with
  | nil => rfl
  | cons l rest ih =>
      rw [finalize, memberTotal_cons, memberTotal_cons, listMembers_assignList, ih]

theorem finalize_getD_getD (g : ℤ) (bm : BlobMat) (lbl i : ℕ)
    (hlbl : lbl < bm.length) (hi : i < (bm.getD lbl []).length) :
    ∃ gid lv : ℤ, ((finalize g bm).getD lbl []).getD i default =
      { (bm.getD lbl []).getD i default with id := gid, lid := lv } := by
  obtain ⟨g', hg'⟩ := finalize_getD_ex g bm lbl hlbl
  rw [hg', assignList_getD _ _ _ _ hi]
  exact ⟨g' + (i : ℤ), 0 + (i : ℤ), rfl⟩

theorem finalize_getD_length (g : ℤ) (bm : BlobMat) (lbl : ℕ) (hlbl : lbl < bm.length) :
    ((finalize g bm).getD lbl []).length = (bm.getD lbl []).length := by
  obtain ⟨g', hg'⟩ := finalize_getD_ex g bm lbl hlbl
  rw [hg', assignList_length]

theorem mem_finalize_getD (g : ℤ) (bm : BlobMat) (lbl : ℕ) (hlbl : lbl < bm.length)
    (b : Blob) (hb : b ∈ (finalize g bm).getD lbl []) :
    ∃ orig ∈ bm.getD lbl [], ∃ gid lv : ℤ, b = { orig with id := gid, lid := lv } := by
  obtain ⟨g', hg'⟩ := finalize_getD_ex g bm lbl hlbl
  rw [hg'] at hb
  exact mem_assignList _ _ _ _ hb

theorem map_length_finalize (g : ℤ) (bm : BlobMat) :
    (finalize g bm).map List.length = bm.map List.length := by
  induction bm generalizing g with
  | nil => rfl
  | cons l rest ih => simp [finalize, assignList_length, ih]

/-- The hypothesis-free invariant of pass 2: every blob in the matrix is
nonempty and all its members are pixels whose component passes the filter. -/
def WeakInv (ccs : List ℤ) (ms : ℤ → Point3) (rs : ℤ → ℕ) (minPts maxSize : ℤ)
    (st : BlobMat × (ℤ → ℤ)) : Prop :=
  ∀ lst ∈ st.1, ∀ b ∈ lst, b.indices ≠ [] ∧
    ∀ j ∈ b.indices, ccPasses ms rs minPts maxSize (ccs.getD j (-1)) = true

theorem weakInv_step (ccs : List ℤ) (ms : ℤ → Point3) (rs : ℤ → ℕ) (minPts maxSize : ℤ)
    (st : BlobMat × (ℤ → ℤ)) (k label : ℕ) (c : ℤ) (hc : ccs.getD k (-1) = c)
    (h : WeakInv ccs ms rs minPts maxSize st) :
    WeakInv ccs ms rs minPts maxSize (pass2Step ms rs minPts maxSize st k label c) := by
  by_cases hpass : ccPasses ms rs minPts maxSize c = true
  · by_cases hre : st.2 c = -1
    · rw [pass2Step_create _ _ _ _ _ _ _ _ hpass hre]
      intro lst hlst b hb
      rcases mem_modifyAt hlst with hlst | ⟨hl, rfl⟩
      · exact h lst hlst b hb
      · rcases List.mem_append.mp hb with hbo | hbn
        · exact h _ (mem_of_getD _ _ _ hl) b hbo
        · have hbnb : b = createdBlob label ms rs c k := by simpa using hbn
          subst hbnb
          refine ⟨by simp [createdBlob], ?_⟩
          intro j hj
          have hjk : j = k := by simpa [createdBlob] using hj
          subst hjk
          rw [hc]
          exact hpass
    · rw [pass2Step_push _ _ _ _ _ _ _ _ hpass hre]
      intro lst hlst b hb
      rcases mem_modifyAt hlst with hlst | ⟨hl, rfl⟩
      · exact h lst hlst b hb
      · rcases mem_modifyAt hb with hbo | ⟨hi2, rfl⟩
        · exact h _ (mem_of_getD _ _ _ hl) b hbo
        · obtain ⟨hne, hmem⟩ := h _ (mem_of_getD _ _ _ hl) _ (mem_of_getD _ _ _ hi2)
          refine ⟨by simp [pushIndex], ?_⟩
          intro j hj
          have hj2 : j ∈ ((st.1.getD label []).getD (st.2 c).toNat default).indices ∨ j = k := by
            simpa [pushIndex] using hj
          rcases hj2 with hjo | hjk
          · exact hmem j hjo
          · subst hjk
            rw [hc]
            exact hpass
  · rw [pass2Step_skip _ _ _ _ _ _ _ _ hpass]
    exact h

theorem weakInv_final (numParts : ℕ) (labels : List ℕ) (ccs : List ℤ)
    (ms : ℤ → Point3) (rs : ℤ → ℕ) (minPts maxSize : ℤ) :
    WeakInv ccs ms rs minPts maxSize
      (pass2 ms rs minPts maxSize 0 (labels.zip ccs)
        (List.replicate numParts [], fun _ => -1)) := by
  have hinit : WeakInv ccs ms rs minPts maxSize (List.replicate numParts [], fun _ => -1) := by
    intro lst hlst b hb
    rw [List.eq_of_mem_replicate hlst] at hb
    simp at hb
  exact pass2_inv_full ms rs minPts maxSize labels ccs
    (fun _ st => WeakInv ccs ms rs minPts maxSize st)
    (fun k st _ hw => weakInv_step ccs ms rs minPts maxSize st k (labels.getD k 0)
      (ccs.getD k (-1)) rfl hw)
    _ hinit

/-! Concrete frames used by the counterexamples and witnesses. -/

/-- The point cloud of Scenario A (spec section 8): points
(0,0,0), (2,0,0), (5,5,5), (7,5,5). -/
def ptsScenarioA : List Point3 := [⟨0, 0, 0⟩, ⟨2, 0, 0⟩, ⟨5, 5, 5⟩, ⟨7, 5, 5⟩]

/-- A three-pixel frame whose component 1 straddles labels 1 and 0. -/
def ptsMixed3 : List Point3 := [⟨0, 0, 1⟩, ⟨0, 0, 1⟩, ⟨4, 0, 1⟩]

/-- A four-pixel frame with unit z coordinates. -/
def ptsOnes4 : List Point3 := [⟨0, 0, 1⟩, ⟨0, 0, 1⟩, ⟨0, 0, 1⟩, ⟨0, 0, 1⟩]

theorem pass2_all_fail (ms : ℤ → Point3) (rs : ℤ → ℕ) (minPts maxSize : ℤ) :
    ∀ (rest : List (ℕ × ℤ)) (k : ℕ) (st : BlobMat × (ℤ → ℤ)),
      (∀ p ∈ rest, ccPasses ms rs minPts maxSize p.2 = false) →
      pass2 ms rs minPts maxSize k rest st = st := by
  intro rest
  induction rest with
  | nil => intro k st _; rfl
  | cons p t ih =>
      intro k st hfail
      rw [show pass2 ms rs minPts maxSize k (p :: t) st =
        pass2 ms rs minPts maxSize (k + 1) t (pass2Step ms rs minPts maxSize st k p.1 p.2)
        from rfl]
      rw [pass2Step_skip _ _ _ _ _ _ _ _
        (by simp [hfail p (List.mem_cons_self p t)])]
      exact ih (k + 1) st (fun q hq => hfail q (List.mem_cons_of_mem p hq))

theorem finalize_replicate (g : ℤ) (n : ℕ) :
    finalize g (List.replicate n []) = List.replicate n [] := by
  induction n generalizing g with
  | zero => rfl
  | succ n ih =>
      rw [List.replicate_succ, finalize]
      rw [show assignList g 0 ([] : List Blob) = [] from rfl]
      simp only [List.length_nil, Nat.cast_zero, add_zero]
      rw [ih, ← List.replicate_succ]

/-- C6: on the concrete Scenario A frame the code does NOT produce the
claimed Blob for label 0: component 0's accumulated z sum is exactly 0
(its points are (0,0,0) and (2,0,0)), so the validity test
`means[cc].z != 0` discards it and `BlobMatrix[L0]` stays empty — the claim
that it holds one Blob with centroid (1,0,0), two members, and that the
assigned ids are {0,1}, is false on the code. -/
theorem c6_counterexample :
    (sortIndicesToBlob2 2 [0, 0, 1, 1] [0, 0, 1, 1] ptsScenarioA 1 10).getD 0 [] = [] := by
  decide

/-- C6 (amended): on the Scenario A frame the aggregation pass yields an
empty list for label 0 (component 0 is discarded because its accumulated z
sum is exactly 0), and for label 1 exactly one Blob with centroid (6,5,5),
members [2,3], id 0 and lid 0. -/
theorem c6_amended :
    sortIndicesToBlob2 2 [0, 0, 1, 1] [0, 0, 1, 1] ptsScenarioA 1 10 =
      [[], [⟨1, ⟨6, 5, 5⟩, [2, 3], 0, 0⟩]] := by
  decide

/-- C7: the aggregation pass is deterministic — equal inputs (label grid,
component-id grid, point cloud, minPtsPerCluster) on the same detector
(same maxClusterSize) give equal BlobMatrix outputs; the embedded pass is a
pure function of its inputs. -/
theorem c7_deterministic (numParts : ℕ) (labels1 labels2 : List ℕ) (ccs1 ccs2 : List ℤ)
    (pts1 pts2 : List Point3) (minPts1 minPts2 maxSize : ℤ)
    (h1 : labels1 = labels2) (h2 : ccs1 = ccs2) (h3 : pts1 = pts2) (h4 : minPts1 = minPts2) :
    sortIndicesToBlob2 numParts labels1 ccs1 pts1 minPts1 maxSize =
      sortIndicesToBlob2 numParts labels2 ccs2 pts2 minPts2 maxSize := by
  rw [h1, h2, h3, h4]

theorem c7_deterministic_witness :
    ([(0 : ℕ)] = [0]) ∧ ([(0 : ℤ)] = [0]) ∧
      ([(⟨0, 0, 1⟩ : Point3)] = [⟨0, 0, 1⟩]) ∧ ((1 : ℤ) = 1) ∧
      sortIndicesToBlob2 1 [0] [0] [⟨0, 0, 1⟩] 1 5 =
        sortIndicesToBlob2 1 [0] [0] [⟨0, 0, 1⟩] 1 5 :=
  ⟨rfl, rfl, rfl, rfl,
    c7_deterministic 1 [0] [0] [0] [0] [⟨0, 0, 1⟩] [⟨0, 0, 1⟩] 1 1 5 rfl rfl rfl rfl⟩

/-- C8: when no component occurring in the frame survives the validity
filter of line 212 (`means[cc].z != 0 && minPts <= rsizes[cc] &&
rsizes[cc] <= maxClusterSize`) — whether filtered by the size bounds, by a
zero z sum, or, in particular, because every pixel's ComponentId is the
sentinel -1, whose slot's z is forced to 0 before pass 2 so that it always
fails the filter (`ccPasses_sentinel`) — the aggregation pass completes and
yields a BlobMatrix whose every per-label list is empty, for any
thresholds: no pixel passes the test, so no blob is ever created. -/
theorem c8_no_survivors (numParts : ℕ) (labels : List ℕ) (ccs : List ℤ)
    (pts : List Point3) (minPts maxSize : ℤ)
    (hall : ∀ c ∈ ccs,
      ccPasses (means ccs pts) (rsizes ccs pts) minPts maxSize c = false) :
    sortIndicesToBlob2 numParts labels ccs pts minPts maxSize =
      List.replicate numParts [] := by
  rw [sortIndicesToBlob2]
  rw [pass2_all_fail (means ccs pts) (rsizes ccs pts) minPts maxSize (labels.zip ccs) 0
    (List.replicate numParts [], fun _ => -1) ?_]
  · exact finalize_replicate 0 numParts
  · intro p hp
    exact hall p.2 (List.of_mem_zip hp).2

theorem c8_no_survivors_witness :
    (∀ c ∈ [(0 : ℤ), 0, -1],
        ccPasses (means [0, 0, -1] ptsMixed3) (rsizes [0, 0, -1] ptsMixed3) 3 10 c
          = false) ∧
      sortIndicesToBlob2 2 [0, 1, 0] [0, 0, -1] ptsMixed3 3 10 =
        List.replicate 2 [] :=
  ⟨by decide, c8_no_survivors 2 [0, 1, 0] [0, 0, -1] ptsMixed3 3 10 (by decide)⟩

/-- C9: constructing the detector with an empty model (tree) file list is
rejected (the failing `assert(!tree_files.empty())` at line 59, modelled as
the `emptyTreeFileList` error) and the returned acquisition trace is empty:
the check precedes the `MultiTreeLiveProc` allocation, the color-map upload
and the buffer allocation, so a rejected construction performs no partial
allocation. -/
theorem c9_empty_tree_list (rows cols : ℕ) :
    constructRDFBodyPartsDetector [] rows cols =
      ([], Except.error CtorError.emptyTreeFileList) := rfl

/-- C2: for every input whatsoever, every Blob in the output has at least
one member, and no member pixel has the sentinel ComponentId -1 — so no
Blob is ever materialized for the sentinel and no sentinel pixel is ever
appended: `means[-1].z = 0` makes the validity test fail for every sentinel
pixel. -/
theorem c2_no_sentinel_blob (numParts : ℕ) (labels : List ℕ) (ccs : List ℤ)
    (pts : List Point3) (minPts maxSize : ℤ) :
    ∀ lst ∈ sortIndicesToBlob2 numParts labels ccs pts minPts maxSize,
      ∀ b ∈ lst, b.indices ≠ [] ∧ ∀ j ∈ b.indices, ccs.getD j (-1) ≠ -1 := by
  intro lst hlst b hb
  rw [sortIndicesToBlob2] at hlst
  obtain ⟨g', lst0, hlst0, rfl⟩ := mem_finalize _ _ _ hlst
  obtain ⟨orig, horig, gid, lv, rfl⟩ := mem_assignList _ _ _ _ hb
  have hw := weakInv_final numParts labels ccs (means ccs pts) (rsizes ccs pts) minPts maxSize
  obtain ⟨hne, hmem⟩ := hw lst0 hlst0 orig horig
  refine ⟨hne, ?_⟩
  intro j hj
  have hj2 : j ∈ orig.indices := hj
  exact ne_sentinel_of_ccPasses ccs pts (rsizes ccs pts) minPts maxSize _ (hmem j hj2)

/-- C10 counterexample: on the frame with labels [0,1,0], component ids
[0,1,1] and unit-z points, pixel 2 (component 1, label 0) passes the
filter, yet it is NOT appended to the Blob created for component 1 (which
lives in list 1 and keeps the single member [1]); instead it is appended to
list 0's blob, the one created for component 0, whose members become
[0, 2].  This refutes the claim that every later passing pixel of a
component is appended to that component's Blob even if its label differs:
the code indexes `blob_matrix_[label][remap_[cc]]` with the current pixel's
label. -/
theorem c10_counterexample :
    ((sortIndicesToBlob2 2 [0, 1, 0] [0, 1, 1] ptsMixed3 1 10).getD 1 []).map Blob.indices
        = [[1]] ∧
    ((sortIndicesToBlob2 2 [0, 1, 0] [0, 1, 1] ptsMixed3 1 10).getD 0 []).map Blob.indices
        = [[0, 2]] ∧
    ccPasses (means [0, 1, 1] ptsMixed3) (rsizes [0, 1, 1] ptsMixed3) 1 10 1 = true := by
  decide

/-- C10 (amended): the remap table is keyed by ComponentId alone and
exactly one Blob is created per passing component, in the list of the
label of the component's first pixel; but a later passing pixel is appended
to the blob at the remapped index in its OWN label's list, so every member
of a blob in list `lbl` has label `lbl`, equal to the blob's label field —
when the label-homogeneity invariant is violated a blob's members can mix
components (see the counterexample), never labels. -/
theorem c10_amended (numParts : ℕ) (labels : List ℕ) (ccs : List ℤ) (pts : List Point3)
    (minPts maxSize : ℤ) (hLab : ∀ x ∈ labels, x < numParts) :
    ∀ lbl, lbl < numParts →
      ∀ b ∈ (sortIndicesToBlob2 numParts labels ccs pts minPts maxSize).getD lbl [],
        b.label = lbl ∧ ∀ j ∈ b.indices, labels.getD j 0 = lbl := by
  intro lbl hlbl b hb
  have hS := stInv_final numParts labels ccs (means ccs pts) (rsizes ccs pts)
    minPts maxSize hLab
  rw [sortIndicesToBlob2] at hb
  obtain ⟨orig, horig, gid, lv, rfl⟩ := mem_finalize_getD 0 _ lbl
    (by rw [hS.len]; exact hlbl) b hb
  have binv := hS.blob lbl hlbl orig horig
  refine ⟨binv.label_eq, ?_⟩
  intro j hj
  exact (binv.mem j hj).2.1

theorem c10_amended_witness :
    (∀ x ∈ [(0 : ℕ)], x < 1) ∧
      (∀ lbl, lbl < 1 →
        ∀ b ∈ (sortIndicesToBlob2 1 [0] [0] [⟨0, 0, 1⟩] 0 5).getD lbl [],
          b.label = lbl ∧ ∀ j ∈ b.indices, [(0 : ℕ)].getD j 0 = lbl) :=
  ⟨by decide, c10_amended 1 [0] [0] [⟨0, 0, 1⟩] 0 5 (by decide)⟩

/-- C1 counterexample: the claim's preconditions hold (component ids in
[-1, 4), minPtsPerCluster = 1 >= 0, maxClusterSize = 2 > 1), yet on the
frame with labels [0,1,0,0] and component ids [0,1,0,1] — component 1
straddles labels 1 and 0, which the listed preconditions do not exclude —
the blob of list 0 ends with members [0,2,3]: pixel 3 of component 1 is
appended to component 0's blob through the remap table, so its member count
3 exceeds maxClusterSize = 2. -/
theorem c1_counterexample :
    (∀ c ∈ [(0 : ℤ), 1, 0, 1], -1 ≤ c ∧ c < 4) ∧ (0 : ℤ) ≤ 1 ∧ (1 : ℤ) < 2 ∧
    ∃ lst ∈ sortIndicesToBlob2 2 [0, 1, 0, 0] [0, 1, 0, 1] ptsOnes4 1 2,
      ∃ b ∈ lst, ¬ ((1 : ℤ) ≤ (b.indices.length : ℤ) ∧ (b.indices.length : ℤ) ≤ 2) := by
  decide

/-- C1 (amended): with the upstream label-homogeneity invariant added to
the stated preconditions (equal pixel counts, component ids in
[-1, rows*cols), 0 <= minPtsPerCluster < maxClusterSize, labels in range),
every Blob's member count lies in [minPtsPerCluster, maxClusterSize]. -/
theorem c1_amended (numParts : ℕ) (labels : List ℕ) (ccs : List ℤ) (pts : List Point3)
    (minPts maxSize : ℤ)
    (hLen1 : labels.length = ccs.length) (hLen2 : ccs.length = pts.length)
    (_hRange : ∀ c ∈ ccs, -1 ≤ c ∧ c < (ccs.length : ℤ))
    (_hMin : 0 ≤ minPts) (_hMax : minPts < maxSize)
    (hLab : ∀ x ∈ labels, x < numParts) (hHom : LabelHomogeneous labels ccs) :
    ∀ lst ∈ sortIndicesToBlob2 numParts labels ccs pts minPts maxSize,
      ∀ b ∈ lst, minPts ≤ (b.indices.length : ℤ) ∧ (b.indices.length : ℤ) ≤ maxSize := by
  intro lst hlst b hb
  obtain ⟨hS, hH⟩ := bothInv_final numParts labels ccs pts (means ccs pts) (rsizes ccs pts)
    minPts maxSize hLab hLen2 hHom
  rw [sortIndicesToBlob2] at hlst
  obtain ⟨g', lst0, hlst0, rfl⟩ := mem_finalize _ _ _ hlst
  obtain ⟨orig, horig, gid, lv, rfl⟩ := mem_assignList _ _ _ _ hb
  obtain ⟨lbl, hlbl, hl0⟩ := List.getElem_of_mem hlst0
  have hlblp : lbl < numParts := by
    rw [← hS.len]
    exact hlbl
  have horig2 : orig ∈ (pass2 (means ccs pts) (rsizes ccs pts) minPts maxSize 0
      (labels.zip ccs) (List.replicate numParts [], fun _ => -1)).1.getD lbl [] := by
    rw [List.getD_eq_getElem _ _ hlbl, hl0]
    exact horig
  have hmsum := (hH.msum lbl hlblp orig horig2).2
  have hzz : (ccs.zip pts).length ≤ (labels.zip ccs).length := by
    rw [List.length_zip, List.length_zip]
    omega
  have htc := takeCount_of_ge ccs pts (labels.zip ccs).length
    (ccs.getD (headIdx orig) (-1)) hzz
  have binv := hS.blob lbl hlblp orig horig2
  have hp := (binv.mem _ (headIdx_mem _ binv.nonempty)).2.2
  rw [ccPasses_iff] at hp
  obtain ⟨_, hge, hle⟩ := hp
  rw [rsizes_eq_ccCount] at hge hle
  have hlen_eq : orig.indices.length = ccCount ccs pts (ccs.getD (headIdx orig) (-1)) := by
    rw [hmsum, htc]
  constructor
  · show minPts ≤ (orig.indices.length : ℤ)
    rw [hlen_eq]
    exact hge
  · show (orig.indices.length : ℤ) ≤ maxSize
    rw [hlen_eq]
    exact hle

theorem c1_amended_witness :
    ([(0 : ℕ)].length = [(0 : ℤ)].length) ∧ ([(0 : ℤ)].length = [(⟨0, 0, 1⟩ : Point3)].length) ∧
    (∀ c ∈ [(0 : ℤ)], -1 ≤ c ∧ c < 1) ∧ ((0 : ℤ) ≤ 0) ∧ ((0 : ℤ) < 5) ∧
    (∀ x ∈ [(0 : ℕ)], x < 1) ∧ LabelHomogeneous [0] [0] ∧
    ∀ lst ∈ sortIndicesToBlob2 1 [0] [0] [⟨0, 0, 1⟩] 0 5,
      ∀ b ∈ lst, (0 : ℤ) ≤ (b.indices.length : ℤ) ∧ (b.indices.length : ℤ) ≤ 5 :=
  ⟨by decide, by decide, by decide, by decide, by decide, by decide,
    by unfold LabelHomogeneous; decide,
    c1_amended 1 [0] [0] [⟨0, 0, 1⟩] 0 5 (by decide) (by decide) (by decide) (by decide)
      (by decide) (by decide) (by unfold LabelHomogeneous; decide)⟩

/-- C4 counterexample: on the label-straddling frame with labels [0,1,0]
and component ids [0,1,1], the blob of list 0 (created for component 0, centroid (0,0,1)) ends with
members [0,2], whose points (0,0,1) and (4,0,1) average to (2,0,1) — its
centroid is NOT the arithmetic mean of its member points, because pixel 2
belongs to component 1 and was appended through the remap table. -/
theorem c4_counterexample :
    ∃ lst ∈ sortIndicesToBlob2 2 [0, 1, 0] [0, 1, 1] ptsMixed3 1 10,
      ∃ b ∈ lst,
        ¬ b.mean = ⟨qdiv (memberSum ptsMixed3 b.indices).x (b.indices.length : ℚ),
                    qdiv (memberSum ptsMixed3 b.indices).y (b.indices.length : ℚ),
                    qdiv (memberSum ptsMixed3 b.indices).z (b.indices.length : ℚ)⟩ := by
  decide

/-- C4 (amended): with the upstream label-homogeneity invariant, every
materialized Blob belongs to a single non-sentinel component `c`; its
members are exactly the pixels of `c`; and its centroid equals the pass-1
accumulated coordinate sums of `c` divided by the accumulated count of
`c`, which is also the arithmetic mean of its member points. -/
theorem c4_amended (numParts : ℕ) (labels : List ℕ) (ccs : List ℤ) (pts : List Point3)
    (minPts maxSize : ℤ)
    (hLen1 : labels.length = ccs.length) (hLen2 : ccs.length = pts.length)
    (hLab : ∀ x ∈ labels, x < numParts) (hHom : LabelHomogeneous labels ccs) :
    ∀ lst ∈ sortIndicesToBlob2 numParts labels ccs pts minPts maxSize,
      ∀ b ∈ lst, ∃ c : ℤ, c ≠ -1 ∧
        b.indices = (List.range ccs.length).filter (fun j => decide (ccs.getD j (-1) = c)) ∧
        b.mean = ⟨qdiv (ccSum ccs pts c).x (ccCount ccs pts c : ℚ),
                  qdiv (ccSum ccs pts c).y (ccCount ccs pts c : ℚ),
                  qdiv (ccSum ccs pts c).z (ccCount ccs pts c : ℚ)⟩ ∧
        b.mean = ⟨qdiv (memberSum pts b.indices).x (b.indices.length : ℚ),
                  qdiv (memberSum pts b.indices).y (b.indices.length : ℚ),
                  qdiv (memberSum pts b.indices).z (b.indices.length : ℚ)⟩ := by
  intro lst hlst b hb
  obtain ⟨hS, hH⟩ := bothInv_final numParts labels ccs pts (means ccs pts) (rsizes ccs pts)
    minPts maxSize hLab hLen2 hHom
  rw [sortIndicesToBlob2] at hlst
  obtain ⟨g', lst0, hlst0, rfl⟩ := mem_finalize _ _ _ hlst
  obtain ⟨orig, horig, gid, lv, rfl⟩ := mem_assignList _ _ _ _ hb
  obtain ⟨lbl, hlbl, hl0⟩ := List.getElem_of_mem hlst0
  have hlblp : lbl < numParts := by
    rw [← hS.len]
    exact hlbl
  have horig2 : orig ∈ (pass2 (means ccs pts) (rsizes ccs pts) minPts maxSize 0
      (labels.zip ccs) (List.replicate numParts [], fun _ => -1)).1.getD lbl [] := by
    rw [List.getD_eq_getElem _ _ hlbl, hl0]
    exact horig
  have binv := hS.blob lbl hlblp orig horig2
  have hp := (binv.mem _ (headIdx_mem _ binv.nonempty)).2.2
  have hcne : ccs.getD (headIdx orig) (-1) ≠ -1 :=
    ne_sentinel_of_ccPasses ccs pts (rsizes ccs pts) minPts maxSize _ hp
  refine ⟨ccs.getD (headIdx orig) (-1), hcne, ?_, ?_, ?_⟩
  · show orig.indices = _
    have hidx := hH.indices_eq lbl hlblp orig horig2
    have hzl : (labels.zip ccs).length = ccs.length := by
      rw [List.length_zip]
      omega
    rw [hidx, hzl]
  · show orig.mean = _
    rw [binv.mean_eq, blobMean, means_of_ne ccs pts _ hcne, rsizes_eq_ccCount]
  · show orig.mean = _
    have hzz : (ccs.zip pts).length ≤ (labels.zip ccs).length := by
      rw [List.length_zip, List.length_zip]
      omega
    obtain ⟨hs1, hs2⟩ := hH.msum lbl hlblp orig horig2
    rw [takeSum_of_ge ccs pts _ _ hzz] at hs1
    rw [takeCount_of_ge ccs pts _ _ hzz] at hs2
    show orig.mean =
      ⟨qdiv (memberSum pts orig.indices).x (orig.indices.length : ℚ),
       qdiv (memberSum pts orig.indices).y (orig.indices.length : ℚ),
       qdiv (memberSum pts orig.indices).z (orig.indices.length : ℚ)⟩
    rw [hs1, hs2, binv.mean_eq, blobMean, means_of_ne ccs pts _ hcne, rsizes_eq_ccCount]

theorem c4_amended_witness :
    ([(0 : ℕ)].length = [(0 : ℤ)].length) ∧ ([(0 : ℤ)].length = [(⟨0, 0, 1⟩ : Point3)].length) ∧
    (∀ x ∈ [(0 : ℕ)], x < 1) ∧ LabelHomogeneous [0] [0] ∧
    ∀ lst ∈ sortIndicesToBlob2 1 [0] [0] [⟨0, 0, 1⟩] 0 5,
      ∀ b ∈ lst, ∃ c : ℤ, c ≠ -1 ∧
        b.indices = (List.range [(0 : ℤ)].length).filter
          (fun j => decide ([(0 : ℤ)].getD j (-1) = c)) ∧
        b.mean = ⟨qdiv (ccSum [0] [⟨0, 0, 1⟩] c).x (ccCount [0] [⟨0, 0, 1⟩] c : ℚ),
                  qdiv (ccSum [0] [⟨0, 0, 1⟩] c).y (ccCount [0] [⟨0, 0, 1⟩] c : ℚ),
                  qdiv (ccSum [0] [⟨0, 0, 1⟩] c).z (ccCount [0] [⟨0, 0, 1⟩] c : ℚ)⟩ ∧
        b.mean = ⟨qdiv (memberSum [⟨0, 0, 1⟩] b.indices).x (b.indices.length : ℚ),
                  qdiv (memberSum [⟨0, 0, 1⟩] b.indices).y (b.indices.length : ℚ),
                  qdiv (memberSum [⟨0, 0, 1⟩] b.indices).z (b.indices.length : ℚ)⟩ :=
  ⟨by decide, by decide, by decide, by unfold LabelHomogeneous; decide,
    c4_amended 1 [0] [0] [⟨0, 0, 1⟩] 0 5 (by decide) (by decide) (by decide)
      (by unfold LabelHomogeneous; decide)⟩

/-- C5 counterexample: on the frame with component ids [0,0] and points
(0,0,0), (2,0,0) with thresholds [1,10], both pixels are non-sentinel and
their component's total count 2 lies within the bounds, so the claim
predicts a member total of 2; but component 0's accumulated z sum is
exactly 0, the validity test discards it, and the actual member total is
0. -/
theorem c5_counterexample :
    memberTotal (sortIndicesToBlob2 1 [0, 0] [0, 0] [⟨0, 0, 0⟩, ⟨2, 0, 0⟩] 1 10) = 0 ∧
    ((List.range 2).filter (fun j =>
      decide ([(0 : ℤ), 0].getD j (-1) ≠ -1) &&
      decide ((1 : ℤ) ≤ (ccCount [0, 0] [⟨0, 0, 0⟩, ⟨2, 0, 0⟩] ([(0 : ℤ), 0].getD j (-1)) : ℤ)) &&
      decide ((ccCount [0, 0] [⟨0, 0, 0⟩, ⟨2, 0, 0⟩] ([(0 : ℤ), 0].getD j (-1)) : ℤ) ≤ 10))).length
      = 2 ∧
    (0 : ℕ) ≠ 2 := by
  decide

/-- C5 (amended): under the label-homogeneity invariant (and labels in
range, equal lengths), the sum of member counts over all Blobs equals the
number of pixels whose ComponentId is non-sentinel, whose component's
accumulated z sum is nonzero (the extra condition of the validity test),
and whose component's total accumulated count lies within
[minPtsPerCluster, maxClusterSize]. -/
theorem c5_amended (numParts : ℕ) (labels : List ℕ) (ccs : List ℤ) (pts : List Point3)
    (minPts maxSize : ℤ)
    (hLen1 : labels.length = ccs.length) (hLen2 : ccs.length = pts.length)
    (hLab : ∀ x ∈ labels, x < numParts) (hHom : LabelHomogeneous labels ccs) :
    memberTotal (sortIndicesToBlob2 numParts labels ccs pts minPts maxSize) =
      ((List.range ccs.length).filter (fun j =>
        decide (ccs.getD j (-1) ≠ -1) &&
        decide ((ccSum ccs pts (ccs.getD j (-1))).z ≠ 0) &&
        decide (minPts ≤ (ccCount ccs pts (ccs.getD j (-1)) : ℤ)) &&
        decide ((ccCount ccs pts (ccs.getD j (-1)) : ℤ) ≤ maxSize))).length := by
  obtain ⟨hS, hH⟩ := bothInv_final numParts labels ccs pts (means ccs pts) (rsizes ccs pts)
    minPts maxSize hLab hLen2 hHom
  rw [sortIndicesToBlob2, memberTotal_finalize, hH.total]
  have hzl : (labels.zip ccs).length = ccs.length := by
    rw [List.length_zip]
    omega
  rw [hzl]
  congr 1
  apply List.filter_congr
  intro j _
  by_cases hcj : ccs.getD j (-1) = -1
  · rw [hcj, ccPasses_sentinel]
    simp
  · have h1 : (decide (ccs.getD j (-1) ≠ -1)) = true := by simpa using hcj
    rw [ccPasses, means_of_ne ccs pts _ hcj, h1]
    simp only [rsizes_eq_ccCount]
    rw [Bool.true_and]

theorem c5_amended_witness :
    ([(0 : ℕ)].length = [(0 : ℤ)].length) ∧ ([(0 : ℤ)].length = [(⟨0, 0, 1⟩ : Point3)].length) ∧
    (∀ x ∈ [(0 : ℕ)], x < 1) ∧ LabelHomogeneous [0] [0] ∧
    memberTotal (sortIndicesToBlob2 1 [0] [0] [⟨0, 0, 1⟩] 0 5) =
      ((List.range [(0 : ℤ)].length).filter (fun j =>
        decide ([(0 : ℤ)].getD j (-1) ≠ -1) &&
        decide ((ccSum [0] [⟨0, 0, 1⟩] ([(0 : ℤ)].getD j (-1))).z ≠ 0) &&
        decide ((0 : ℤ) ≤ (ccCount [0] [⟨0, 0, 1⟩] ([(0 : ℤ)].getD j (-1)) : ℤ)) &&
        decide ((ccCount [0] [⟨0, 0, 1⟩] ([(0 : ℤ)].getD j (-1)) : ℤ) ≤ 5))).length :=
  ⟨by decide, by decide, by decide, by unfold LabelHomogeneous; decide,
    c5_amended 1 [0] [0] [⟨0, 0, 1⟩] 0 5 (by decide) (by decide) (by decide)
      (by unfold LabelHomogeneous; decide)⟩

/-- C3: after finalization the Blob ids, read in label order and creation
order within each label (the flattening order of the matrix), are exactly
0, 1, ..., totalBlobs-1; within each label's list every lid equals the list
position; within each list the creating pixels (first members) strictly
increase in raster order and each blob's creating pixel is the first pixel
of its component in the whole frame, so the list is in
first-pixel-encountered order of distinct surviving components; and every
surviving component that occurs in the frame is represented by a blob. -/
theorem c3_ids_lids (numParts : ℕ) (labels : List ℕ) (ccs : List ℤ) (pts : List Point3)
    (minPts maxSize : ℤ) (hLab : ∀ x ∈ labels, x < numParts) (bm : BlobMat)
    (hbm : bm = sortIndicesToBlob2 numParts labels ccs pts minPts maxSize) :
    (bm.flatten.map Blob.id = (List.range bm.flatten.length).map (fun i : ℕ => (i : ℤ))) ∧
    (∀ lst ∈ bm, lst.map Blob.lid = (List.range lst.length).map (fun i : ℕ => (i : ℤ))) ∧
    (∀ lbl, lbl < numParts → ∀ i j, i < j → j < (bm.getD lbl []).length →
      headIdx ((bm.getD lbl []).getD i default) < headIdx ((bm.getD lbl []).getD j default)) ∧
    (∀ lbl, lbl < numParts → ∀ b ∈ bm.getD lbl [],
      b.indices ≠ [] ∧ labels.getD (headIdx b) 0 = lbl ∧
      ∀ j, j < headIdx b → ccs.getD j (-1) ≠ ccs.getD (headIdx b) (-1)) ∧
    (∀ c : ℤ, ccPasses (means ccs pts) (rsizes ccs pts) minPts maxSize c = true →
      (∃ j, j < (labels.zip ccs).length ∧ ccs.getD j (-1) = c) →
      ∃ lbl, lbl < numParts ∧ ∃ b ∈ bm.getD lbl [], ccs.getD (headIdx b) (-1) = c) := by
  have hS := stInv_final numParts labels ccs (means ccs pts) (rsizes ccs pts)
    minPts maxSize hLab
  set stF := pass2 (means ccs pts) (rsizes ccs pts) minPts maxSize 0 (labels.zip ccs)
    (List.replicate numParts [], fun _ => -1) with hstF
  have hbm2 : bm = finalize 0 stF.1 := hbm
  rw [hbm2]
  refine ⟨?_, ?_, ?_, ?_, ?_⟩
  · rw [finalize_flatten_id, List.length_flatten, map_length_finalize]
    refine List.map_congr_left (fun i _ => ?_)
    simp
  · exact finalize_map_lid 0 stF.1
  · intro lbl hlbl i j hij hj
    have hlbl0 : lbl < stF.1.length := by
      rw [hS.len]
      exact hlbl
    rw [finalize_getD_length _ _ _ hlbl0] at hj
    obtain ⟨g1, l1, h1⟩ := finalize_getD_getD 0 stF.1 lbl i hlbl0 (lt_trans hij hj)
    obtain ⟨g2, l2, h2⟩ := finalize_getD_getD 0 stF.1 lbl j hlbl0 hj
    rw [h1, h2]
    exact hS.chain lbl hlbl i j hij hj
  · intro lbl hlbl b hb
    have hlbl0 : lbl < stF.1.length := by
      rw [hS.len]
      exact hlbl
    obtain ⟨orig, horig, gid, lv, rfl⟩ := mem_finalize_getD 0 stF.1 lbl hlbl0 b hb
    have binv := hS.blob lbl hlbl orig horig
    exact ⟨binv.nonempty, (binv.mem _ (headIdx_mem _ binv.nonempty)).2.1, binv.first⟩
  · intro c hp hex
    obtain ⟨j, hjn, hjc⟩ := hex
    have hre : stF.2 c ≠ -1 := (hS.remap_iff c).mpr ⟨hp, j, hjn, hjc⟩
    obtain ⟨k0, _, hck0, _, hl0, hpos, hhead⟩ := hS.remap_loc c hre
    have hlbl0 : labels.getD k0 0 < stF.1.length := by
      rw [hS.len]
      exact hl0
    obtain ⟨gid, lv, hgetd⟩ := finalize_getD_getD 0 stF.1 (labels.getD k0 0)
      (stF.2 c).toNat hlbl0 hpos
    refine ⟨labels.getD k0 0, hl0,
      ((finalize 0 stF.1).getD (labels.getD k0 0) []).getD (stF.2 c).toNat default,
      mem_of_getD _ _ _ (by rw [finalize_getD_length _ _ _ hlbl0]; exact hpos), ?_⟩
    have h5 : headIdx (((finalize 0 stF.1).getD (labels.getD k0 0) []).getD
        (stF.2 c).toNat default) = k0 := by
      rw [hgetd]
      exact hhead
    rw [h5]
    exact hck0

theorem c3_ids_lids_witness :
    (∀ x ∈ [(0 : ℕ)], x < 1) ∧
    (sortIndicesToBlob2 1 [0] [0] [⟨0, 0, 1⟩] 0 5 =
      sortIndicesToBlob2 1 [0] [0] [⟨0, 0, 1⟩] 0 5) ∧
    (((sortIndicesToBlob2 1 [0] [0] [⟨0, 0, 1⟩] 0 5).flatten.map Blob.id =
      (List.range (sortIndicesToBlob2 1 [0] [0] [⟨0, 0, 1⟩] 0 5).flatten.length).map
        (fun i : ℕ => (i : ℤ))) ∧
    (∀ lst ∈ sortIndicesToBlob2 1 [0] [0] [⟨0, 0, 1⟩] 0 5,
      lst.map Blob.lid = (List.range lst.length).map (fun i : ℕ => (i : ℤ))) ∧
    (∀ lbl, lbl < 1 → ∀ i j, i < j →
      j < ((sortIndicesToBlob2 1 [0] [0] [⟨0, 0, 1⟩] 0 5).getD lbl []).length →
      headIdx (((sortIndicesToBlob2 1 [0] [0] [⟨0, 0, 1⟩] 0 5).getD lbl []).getD i default) <
        headIdx (((sortIndicesToBlob2 1 [0] [0] [⟨0, 0, 1⟩] 0 5).getD lbl []).getD j default)) ∧
    (∀ lbl, lbl < 1 → ∀ b ∈ (sortIndicesToBlob2 1 [0] [0] [⟨0, 0, 1⟩] 0 5).getD lbl [],
      b.indices ≠ [] ∧ [(0 : ℕ)].getD (headIdx b) 0 = lbl ∧
      ∀ j, j < headIdx b → [(0 : ℤ)].getD j (-1) ≠ [(0 : ℤ)].getD (headIdx b) (-1)) ∧
    (∀ c : ℤ, ccPasses (means [0] [⟨0, 0, 1⟩]) (rsizes [0] [⟨0, 0, 1⟩]) 0 5 c = true →
      (∃ j, j < ([(0 : ℕ)].zip [(0 : ℤ)]).length ∧ [(0 : ℤ)].getD j (-1) = c) →
      ∃ lbl, lbl < 1 ∧ ∃ b ∈ (sortIndicesToBlob2 1 [0] [0] [⟨0, 0, 1⟩] 0 5).getD lbl [],
        [(0 : ℤ)].getD (headIdx b) (-1) = c)) :=
  ⟨by decide, rfl,
    c3_ids_lids 1 [0] [0] [⟨0, 0, 1⟩] 0 5 (by decide) _ rfl⟩

theorem c2_no_sentinel_blob_witness :
    ([(⟨1, ⟨6, 5, 5⟩, [2, 3], 0, 0⟩ : Blob)] ∈
        sortIndicesToBlob2 2 [0, 0, 1, 1] [0, 0, 1, 1] ptsScenarioA 1 10) ∧
    ((⟨1, ⟨6, 5, 5⟩, [2, 3], 0, 0⟩ : Blob) ∈ [(⟨1, ⟨6, 5, 5⟩, [2, 3], 0, 0⟩ : Blob)]) ∧
    ((⟨1, ⟨6, 5, 5⟩, [2, 3], 0, 0⟩ : Blob).indices ≠ [] ∧
      ∀ j ∈ (⟨1, ⟨6, 5, 5⟩, [2, 3], 0, 0⟩ : Blob).indices,
        [(0 : ℤ), 0, 1, 1].getD j (-1) ≠ -1) :=
  ⟨by decide, by decide,
    c2_no_sentinel_blob 2 [0, 0, 1, 1] [0, 0, 1, 1] ptsScenarioA 1 10
      [⟨1, ⟨6, 5, 5⟩, [2, 3], 0, 0⟩] (by decide) ⟨1, ⟨6, 5, 5⟩, [2, 3], 0, 0⟩ (by decide)⟩
